import Mathlib

/-!
Verification development for the folding-control server's state-synchronization
and command-dispatch core (src/server.js).

The embedding models JSON-representable values (the only values that flow
through the WebSocket protocol: every inbound frame is `JSON.parse`d and every
stored document is built from such frames, so documents and update operations
are JSON trees).  JavaScript numbers are modelled as integers: the protocol's
path segments, indices and sentinel keys are integers, and `Number.isInteger`
is the only number-shape test the patcher performs.  Property lookup is
modelled as own-data-property lookup (the prototype chain of plain objects,
e.g. an inherited `toString`, is not modelled; protocol operations address
data fields only).  Mutation of the working copy is modelled functionally
here, and a second, store-passing embedding below makes the in-place
mutation of `applyStateUpdate` explicit for the no-aliasing claim.
-/

namespace FoldingControl

/-- A JSON value: the type of decoded frames, update operations and stored
documents.  Objects are ordered association lists (JS objects preserve
insertion order for the string keys the protocol uses). -/
inductive JSValue where
  | null : JSValue
  | bool : Bool → JSValue
  | num : Int → JSValue
  | str : String → JSValue
  | arr : List JSValue → JSValue
  | obj : List (String × JSValue) → JSValue

namespace JSValue

mutual

def beq : JSValue → JSValue → Bool
  | .null, .null => true
  | .bool a, .bool b => a == b
  | .num a, .num b => a == b
  | .str a, .str b => a == b
  | .arr a, .arr b => beqList a b
  | .obj a, .obj b => beqFields a b
  | _, _ => false

def beqList : List JSValue → List JSValue → Bool
  | [], [] => true
  | x :: xs, y :: ys => beq x y && beqList xs ys
  | _, _ => false

def beqFields : List (String × JSValue) → List (String × JSValue) → Bool
  | [], [] => true
  | (k, v) :: xs, (l, w) :: ys => k == l && beq v w && beqFields xs ys
  | _, _ => false

end

mutual

theorem beq_refl : (v : JSValue) → beq v v = true
  | .null => rfl
  | .bool b => by simp [beq]
  | .num n => by simp [beq]
  | .str s => by simp [beq]
  | .arr xs => by simp [beq, beqList_refl xs]
  | .obj fs => by simp [beq, beqFields_refl fs]

theorem beqList_refl : (xs : List JSValue) → beqList xs xs = true
  | [] => rfl
  | x :: xs => by simp [beqList, beq_refl x, beqList_refl xs]

theorem beqFields_refl : (fs : List (String × JSValue)) → beqFields fs fs = true
  | [] => rfl
  | (k, v) :: fs => by simp [beqFields, beq_refl v, beqFields_refl fs]

end

mutual

theorem eq_of_beq : {a b : JSValue} → beq a b = true → a = b
  | .null, .null, _ => rfl
  | .bool a, .bool b, h => by simp [beq] at h; simp [h]
  | .num a, .num b, h => by simp [beq] at h; simp [h]
  | .str a, .str b, h => by simp [beq] at h; simp [h]
  | .arr a, .arr b, h => by
      simp only [beq] at h
      exact congrArg JSValue.arr (eqList_of_beqList h)
  | .obj a, .obj b, h => by
      simp only [beq] at h
      exact congrArg JSValue.obj (eqFields_of_beqFields h)

theorem eqList_of_beqList : {a b : List JSValue} → beqList a b = true → a = b
  | [], [], _ => rfl
  | x :: xs, y :: ys, h => by
      simp only [beqList, Bool.and_eq_true] at h
      rw [eq_of_beq h.1, eqList_of_beqList h.2]

theorem eqFields_of_beqFields :
    {a b : List (String × JSValue)} → beqFields a b = true → a = b
  | [], [], _ => rfl
  | (k, v) :: xs, (l, w) :: ys, h => by
      simp only [beqFields, Bool.and_eq_true] at h
      obtain ⟨⟨h1, h2⟩, h3⟩ := h
      have h1' : k = l := by simpa using h1
      rw [h1', eq_of_beq h2, eqFields_of_beqFields h3]

end

instance : DecidableEq JSValue := fun a b =>
  if h : beq a b = true then .isTrue (eq_of_beq h)
  else .isFalse (fun he => h (he ▸ beq_refl a))

end JSValue

/-- Hyphen-to-underscore conversion on a single character, the body of the
global hyphen-regex replacement in `normalizePropertyKey` (server.js lines
68-76). -/
def normChar (c : Char) : Char := if c = '-' then '_' else c

/-- `normalizePropertyKey` (server.js lines 68-76): a string key of length
1..16 has every hyphen replaced by an underscore; every other key (longer
strings, numbers, any non-string) passes through unchanged. -/
def normalizePropertyKey (key : JSValue) : JSValue :=
  match key with
  | .str s =>
      if 0 < s.length ∧ s.length ≤ 16 then .str (String.mk (s.data.map normChar))
      else .str s
  | k => k

/-- Decimal digit character (`0`-`9`). -/
def decDigit (d : Nat) : Char := Char.ofNat (48 + d % 10)

/-- Decimal digits of a natural, most significant first (accumulator form,
fuelled; `fuel = n` steps always suffice since the value shrinks by a
factor of ten per step). -/
def natDigitsAux : Nat → Nat → List Char → List Char
  | 0, _, acc => acc
  | _ + 1, 0, acc => acc
  | fuel + 1, n + 1, acc =>
      natDigitsAux fuel ((n + 1) / 10) (decDigit ((n + 1) % 10) :: acc)

/-- Canonical decimal string of a natural number (JS `String(n)` for
non-negative integers). -/
def natToString (n : Nat) : String :=
  if n = 0 then "0" else String.mk (natDigitsAux n n [])

/-- Canonical decimal string of an integer (JS `String(n)` for integers,
used when an integer is coerced to a property key). -/
def intToString (n : Int) : String :=
  if n < 0 then "-" ++ natToString (-n).toNat else natToString n.toNat

mutual

/-- JS `ToString` on the values we model, as used implicitly by property
access `o[k]`: numbers print in decimal, arrays join their elements with
commas (`null` elements print as empty), plain objects print as
`[object Object]`. -/
def jsToString : JSValue → String
  | .null => "null"
  | .bool b => if b then "true" else "false"
  | .num n => intToString n
  | .str s => s
  | .arr xs => jsElemsToString xs
  | .obj _ => "[object Object]"

/-- `Array.prototype.join(",")` over decoded values. -/
def jsElemsToString : List JSValue → String
  | [] => ""
  | x :: xs =>
      (match x with
       | .null => ""
       | v => jsToString v) ++
      (match xs with
       | [] => ""
       | _ => "," ++ jsElemsToString xs)

end

/-- Value of an unsigned decimal digit run (`none` when a non-digit
appears). -/
def readDigits : List Char → Nat → Option Nat
  | [], acc => some acc
  | c :: cs, acc =>
      if '0' ≤ c ∧ c ≤ '9' then readDigits cs (acc * 10 + (c.toNat - 48))
      else none

/-- Natural-number value of a non-empty all-digit string. -/
def strNatValue (s : String) : Option Nat :=
  match s.data with
  | [] => none
  | l => readDigits l 0

/-- A property string is a canonical array index when it is the canonical
decimal numeral of a natural number (JS array-index semantics: `"0"`, `"7"`
index elements; `"01"`, `"-1"`, `"x"` are plain properties). -/
def strToIndex (s : String) : Option Nat :=
  match strNatValue s with
  | some n => if natToString n = s then some n else none
  | none => none

/-- First binding of a key in an object's field list (JS own-data-property
lookup). -/
def lookupField {β : Type} : List (String × β) → String → Option β
  | [], _ => none
  | (k, v) :: fs, key => if k = key then some v else lookupField fs key

/-- JS property assignment on an object: update the existing binding in
place, or append a new binding at the end (insertion order preserved). -/
def setField {β : Type} : List (String × β) → String → β → List (String × β)
  | [], key, v => [(key, v)]
  | (k, w) :: fs, key, v =>
      if k = key then (k, v) :: fs else (k, w) :: setField fs key v

/-- JS `delete o[k]`: remove the binding if present; no-op otherwise. -/
def eraseField {β : Type} : List (String × β) → String → List (String × β)
  | [], _ => []
  | (k, w) :: fs, key => if k = key then fs else (k, w) :: eraseField fs key

/-- JS element assignment `a[i] = v` on an array for a canonical index `i`:
replace in range, append at `i = length`, extend with holes beyond (JS
holes serialize as `null` — the `hole` argument — through the JSON clone
every stored document passes through). -/
def listSetExtend {β : Type} (hole : β) (xs : List β) (i : Nat) (v : β) :
    List β :=
  if i < xs.length then xs.set i v
  else xs ++ List.replicate (i - xs.length) hole ++ [v]

/-- JS property read `container[key]` for an already-normalized key:
objects look up the key's string form; arrays look up canonical indices
(non-index array properties are invisible through the JSON clone and read
as absent). `none` is JS `undefined`. -/
def jsGet (container key : JSValue) : Option JSValue :=
  match container with
  | .obj fs => lookupField fs (jsToString key)
  | .arr xs =>
      match strToIndex (jsToString key) with
      | some i => xs.get? i
      | none => none
  | _ => none

/-- JS property write `container[key] = v` for an already-normalized key;
a non-index write on an array targets a property that the JSON
serialization of every stored document discards, hence is modelled as a
no-op. -/
def jsSet (container key v : JSValue) : JSValue :=
  match container with
  | .obj fs => .obj (setField fs (jsToString key) v)
  | .arr xs =>
      match strToIndex (jsToString key) with
      | some i => .arr (listSetExtend JSValue.null xs i v)
      | none => .arr xs
  | other => other

/-- JS string whitespace for `ToNumber` trimming. -/
def isWsChar (c : Char) : Bool := c = ' ' ∨ c = '\t' ∨ c = '\n' ∨ c = '\r'

/-- Strip leading and trailing whitespace from a character list. -/
def trimChars (l : List Char) : List Char :=
  ((l.dropWhile isWsChar).reverse.dropWhile isWsChar).reverse

/-- JS `ToNumber` on a string, restricted to integer numerals with an
optional sign (`none` is `NaN`); a whitespace-only string converts to
`0`. -/
def strToNumber (s : String) : Option Int :=
  match trimChars s.data with
  | [] => some 0
  | '-' :: rest =>
      match rest with
      | [] => none
      | _ => (readDigits rest 0).map (fun n => -(n : Int))
  | '+' :: rest =>
      match rest with
      | [] => none
      | _ => (readDigits rest 0).map Int.ofNat
  | l => (readDigits l 0).map Int.ofNat

/-- JS `ToNumber` as used by the relational comparisons
`targetKey >= 0 && targetKey < length` (server.js line 157): `null` is `0`,
booleans are `0`/`1`, strings and arrays convert through their string form,
objects are `NaN` (`none`). -/
def jsToNumber : JSValue → Option Int
  | .null => some 0
  | .bool b => some (if b then 1 else 0)
  | .num n => some n
  | .str s => strToNumber s
  | .arr xs => strToNumber (jsElemsToString xs)
  | .obj _ => none

/-- Container test of server.js lines 113-114 and 136-137: JS
`typeof x === 'object'` admits objects and arrays and the explicit
`=== null` guard rejects `null`. -/
def isContainer : JSValue → Bool
  | .arr _ => true
  | .obj _ => true
  | _ => false

/-- The container created for a missing path segment (server.js lines
120-123): an array when the next element of the update is an integer
(`nextElement !== null && Number.isInteger(nextElement)`), otherwise an
object. -/
def newContainerFor (nextElement : JSValue) : JSValue :=
  match nextElement with
  | .num _ => .arr []
  | _ => .obj []

/-- The final update applied at the target container (server.js lines
141-173): on an array, key `-1` appends, key `-2` bulk-appends a list value
(and silently ignores a non-list value), a `null` value deletes an in-range
index and otherwise the element at the key is set; on an object, a `null`
value deletes the key and any other value is set.  The final key is
normalized first (line 141). -/
def applyFinal (container rawKey newValue : JSValue) : JSValue :=
  let targetKey := normalizePropertyKey rawKey
  match container with
  | .arr xs =>
      if targetKey = .num (-1) then .arr (xs ++ [newValue])
      else if targetKey = .num (-2) then
        match newValue with
        | .arr vs => .arr (xs ++ vs)
        | _ => .arr xs
      else if newValue = .null then
        match jsToNumber targetKey with
        | some t =>
            if 0 ≤ t ∧ t < (xs.length : Int) then .arr (xs.eraseIdx t.toNat)
            else .arr xs
        | none => .arr xs
      else jsSet (.arr xs) targetKey newValue
  | .obj fs =>
      if newValue = .null then .obj (eraseField fs (jsToString targetKey))
      else .obj (setField fs (jsToString targetKey) newValue)
  | other => other

/-- The element of the update that follows the current path segment
(server.js line 122): the next path segment, or the final key when the
path is exhausted. -/
def nextElementOf (rest : List JSValue) (rawKey : JSValue) : JSValue :=
  match rest with
  | [] => rawKey
  | q :: _ => q

/-- The value the loop descends into for one path segment (server.js lines
120-127): the existing child, unless it is missing (`undefined`) or
`null`, in which case the fresh container of `newContainerFor` is
installed and entered. -/
def pathStepChild (container pathKey nextElement : JSValue) : JSValue :=
  match jsGet container pathKey with
  | none => newContainerFor nextElement
  | some .null => newContainerFor nextElement
  | some c => c

/-- The path-traversal loop of `applyStateUpdate` (server.js lines 104-139)
followed by the final update, written as recursion on the path segments.
Each step validates that the current value is a container (lines 113-117;
`none` is the `return currentState` rejection), normalizes the segment,
creates a missing (`undefined` or `null`) child per `newContainerFor` using
the next element of the update (the following path segment, or the final
key when the path is exhausted), descends, and writes the updated child
back.  The source's second `null` re-check after descending (lines 130-132)
cannot fire, because the creation branch has just replaced any `null` or
missing child with a fresh container. -/
def applyPath (container : JSValue) (path : List JSValue)
    (rawKey finalValue : JSValue) : Option JSValue :=
  match path with
  | [] =>
      if isContainer container then some (applyFinal container rawKey finalValue)
      else none
  | p :: rest =>
      if isContainer container then
        let pathKey := normalizePropertyKey p
        let nextElement := nextElementOf rest rawKey
        match applyPath (pathStepChild container pathKey nextElement) rest
            rawKey finalValue with
        | none => none
        | some child2 => some (jsSet container pathKey child2)
      else none

/-- `applyStateUpdate` (server.js lines 87-176).  A non-array update or one
with fewer than 2 elements returns the input unchanged (lines 89-91).  A
non-object current state (including arrays) is replaced by an empty object
(lines 94-96); the working copy (`JSON.parse(JSON.stringify(...))`, line
99) is the identity on JSON trees and is modelled explicitly in the
store-passing embedding below.  All elements but the last two form the
path; the second-to-last is the final key and the last the new value
(lines 103-142).  A rejection during traversal returns the (possibly
reinitialized) current state. -/
def stateBase (currentState : JSValue) : JSValue :=
  match currentState with
  | .obj fs => JSValue.obj fs
  | _ => JSValue.obj []

def applyStateUpdate (currentState updateArray : JSValue) : JSValue :=
  match updateArray with
  | .arr elems =>
      if elems.length < 2 then currentState
      else
        let base := stateBase currentState
        let path := elems.take (elems.length - 2)
        let rawKey := elems.getD (elems.length - 2) JSValue.null
        let finalValue := elems.getD (elems.length - 1) JSValue.null
        match applyPath base path rawKey finalValue with
        | some result => result
        | none => base
  | _ => currentState

/-- Fuelled interpreter for the traversal loop, one fuel unit per executed
iteration of the `while (pathIndex < pathLength)` loop (server.js line
108); the outer `none` means the budget was exhausted before the loop
finished.  It witnesses that the loop is bounded by the operation's
length. -/
def applyPathFuel (fuel : Nat) (container : JSValue) (path : List JSValue)
    (rawKey finalValue : JSValue) : Option (Option JSValue) :=
  match path with
  | [] =>
      some (if isContainer container then
              some (applyFinal container rawKey finalValue)
            else none)
  | p :: rest =>
      match fuel with
      | 0 => none
      | fuel' + 1 =>
          if isContainer container then
            let pathKey := normalizePropertyKey p
            let nextElement := nextElementOf rest rawKey
            match applyPathFuel fuel' (pathStepChild container pathKey nextElement)
                rest rawKey finalValue with
            | none => none
            | some none => some none
            | some (some child2) => some (some (jsSet container pathKey child2))
          else some none

/-- `applyStateUpdate` run with a loop budget equal to the length of the
update operation (`none` would mean the traversal failed to finish within
that budget). -/
def applyStateUpdateFuel (currentState updateArray : JSValue) :
    Option JSValue :=
  match updateArray with
  | .arr elems =>
      if elems.length < 2 then some currentState
      else
        let base := stateBase currentState
        let path := elems.take (elems.length - 2)
        let rawKey := elems.getD (elems.length - 2) JSValue.null
        let finalValue := elems.getD (elems.length - 1) JSValue.null
        match applyPathFuel elems.length base path rawKey finalValue with
        | none => none
        | some none => some base
        | some (some result) => some result
  | _ => some currentState

example :
    applyStateUpdate (.obj [])
      (.arr [.str "groups", .num 0, .str "name", .str "x"]) =
    .obj [("groups", .arr [.obj [("name", .str "x")]])] := by decide

example :
    applyStateUpdate (.obj [("a", .arr [.num 1, .num 2])])
      (.arr [.str "a", .num (-1), .num 3]) =
    .obj [("a", .arr [.num 1, .num 2, .num 3])] := by decide

example :
    applyStateUpdate (.obj [("a", .num 1), ("b", .num 2)])
      (.arr [.str "b", .null]) =
    .obj [("a", .num 1)] := by decide

example :
    applyStateUpdate (.obj [("work-unit", .num 1)])
      (.arr [.str "cpu-usage", .num 7]) =
    .obj [("work-unit", .num 1), ("cpu_usage", .num 7)] := by decide

/-! ## Inbound-frame handling (server.js lines 204-232)

`messageHandler` decodes each frame; a decoded list is folded into the
stored document via `applyStateUpdate` (applied to a defensive copy — the
identity on JSON trees), a decoded non-null object replaces the stored
document wholesale, and any other decoded value leaves the store untouched.
The pre-fold reinitialization (lines 210-212) keeps any stored object or
array and replaces everything else by an empty object. -/

/-- One inbound frame folded into the stored document of a connection key
(`none` = no document stored yet). -/
def messageHandlerStep (current : Option JSValue) (frame : JSValue) :
    Option JSValue :=
  match frame with
  | .arr elems =>
      let currentState :=
        match current with
        | some (JSValue.obj fs) => JSValue.obj fs
        | some (JSValue.arr xs) => JSValue.arr xs
        | _ => JSValue.obj []
      some (applyStateUpdate currentState (.arr elems))
  | .obj fs => some (.obj fs)
  | _ => current

/-- The stored document after a sequence of inbound frames, starting from
the empty store of a fresh connection. -/
def foldFrames (frames : List JSValue) : Option JSValue :=
  frames.foldl messageHandlerStep none

/-! ## Connection registry (server.js lines 59-61, 180-272)

The registry is the pair of module-level maps `fahConnections` (key →
WebSocket handle) and `machineData` (key → synchronized document), keyed by
the string `instanceId:host:port`. -/

/-- WebSocket `readyState` values. -/
inductive ReadyState where
  | connecting : ReadyState
  | opened : ReadyState
  | closing : ReadyState
  | closed : ReadyState
deriving DecidableEq

/-- A live transport handle, as far as the registry inspects it. -/
structure ConnHandle where
  readyState : ReadyState
deriving DecidableEq

/-- Remove every binding of a key from an association list (`Map.delete`;
registry maps bind each key at most once). -/
def eraseAssoc {β : Type} (l : List (String × β)) (key : String) :
    List (String × β) :=
  l.filter (fun p => p.1 ≠ key)

/-- First binding of a key in an association list (`Map.get`). -/
def lookupAssoc {β : Type} : List (String × β) → String → Option β
  | [], _ => none
  | (k, v) :: l, key => if k = key then some v else lookupAssoc l key

/-- The two shared registry maps. -/
structure Registry where
  fahConnections : List (String × ConnHandle)
  machineData : List (String × JSValue)
deriving DecidableEq

/-- The two transport events whose handlers tear a connection down
(server.js lines 254-262). -/
inductive TransportEvent where
  | closeEvt : TransportEvent
  | errorEvt : TransportEvent
deriving DecidableEq

/-- Teardown handler for a transport close or error event on the
connection of `key` (server.js lines 254-262): both registered handlers
delete the connection handle and the synchronized document. -/
def onTransportEvent (r : Registry) (key : String) (_ev : TransportEvent) :
    Registry :=
  { fahConnections := eraseAssoc r.fahConnections key
    machineData := eraseAssoc r.machineData key }

/-- Non-blocking read of the latest folded document (`machineData.get`). -/
def currentDocument (r : Registry) (key : String) : Option JSValue :=
  lookupAssoc r.machineData key

/-- The two ways `getFAHConnection` can proceed (server.js lines 183-196):
reuse the existing open handle, or run a full new WebSocket handshake
(after discarding any stale closed handle and its document). -/
inductive AcquireStep where
  | reuseExisting : AcquireStep
  | freshHandshake : AcquireStep
deriving DecidableEq

/-- The decision `getFAHConnection` takes for a key (server.js lines
183-191): an existing handle in state `OPEN` is returned as-is; a handle
in any other state is dropped together with its document and a new
handshake is started; no handle means a new handshake. -/
def acquireStep (r : Registry) (key : String) : AcquireStep :=
  match lookupAssoc r.fahConnections key with
  | some conn =>
      if conn.readyState = ReadyState.opened then AcquireStep.reuseExisting
      else AcquireStep.freshHandshake
  | none => AcquireStep.freshHandshake

/-! ## Command router (server.js lines 276-491 and 539-601)

The network outcomes relevant to a single write command are abstracted
into an environment: how `getFAHConnection` resolves, and what
`machineData.get(key)` holds once the 500 ms settle delay has elapsed. -/

/-- Outcome of `getFAHConnection` for the target key. -/
inductive ConnOutcome where
  | connOk : ConnOutcome
  | connRefused : ConnOutcome
  | connTimeout : ConnOutcome
  | connFailed : String → ConnOutcome
deriving DecidableEq

/-- The transport environment a single command runs against. -/
structure WsEnv where
  conn : ConnOutcome
  docAfterSettle : Option JSValue
deriving DecidableEq

/-- The result object `fahWebSocketCommand` resolves to. -/
structure CmdResult where
  success : Bool
  data : Option JSValue
  errMsg : Option String
deriving DecidableEq

/-- `fahWebSocketCommand` (server.js lines 276-309): acquire the
connection (a refusal or timeout is caught and reported as
`Connection refused or timed out`, any other connect error as its own
message), send the command frame, wait the 500 ms settle delay, then
return the current document as success — or a
`No machine state available` failure as data when no document is stored.
The function never throws: every failure is returned as a result value. -/
def fahWebSocketCommand (env : WsEnv) (_command : String)
    (_payload : List (String × JSValue)) : CmdResult :=
  match env.conn with
  | .connOk =>
      match env.docAfterSettle with
      | some d => ⟨true, some d, none⟩
      | none => ⟨false, none, some "No machine state available"⟩
  | .connRefused => ⟨false, none, some "Connection refused or timed out"⟩
  | .connTimeout => ⟨false, none, some "Connection refused or timed out"⟩
  | .connFailed msg => ⟨false, none, some msg⟩

/-- The command frame `fahWebSocketCommand` sends (server.js lines
281-287): the literal fields `cmd` and `time` with the payload spread over
them. -/
def buildCommandFrame (command : String) (time : String)
    (payload : List (String × JSValue)) : JSValue :=
  .obj (payload.foldl (fun acc kv => setField acc kv.1 kv.2)
    [("cmd", .str command), ("time", .str time)])

/-- The endpoint-to-command mapping of `fahRequest` for the run-state
endpoints (server.js lines 319-326): `pause` and `unpause` both map to the
command named `state`, with payload value `pause` resp. `fold` (the
official client resumes with `fold`, not `unpause`). Other endpoints pass
through as their own command name. -/
def mapEndpointCommand (endpoint : String) : String × List (String × JSValue) :=
  if endpoint = "pause" ∨ endpoint = "unpause" then
    ("state", [("state", .str (if endpoint = "pause" then "pause" else "fold"))])
  else (endpoint, [])

/-- How `fahRequest` leaves the WebSocket phase for a write endpoint. -/
inductive WriteRouteResult where
  | returnedFromWs : CmdResult → WriteRouteResult
  | attemptedHttpFallback : Option String → WriteRouteResult
deriving DecidableEq

/-- The WebSocket phase of `fahRequest` for a write endpoint such as
`pause`/`unpause` (server.js lines 312-326, 394-398, 450-491): the mapped
command is sent via `fahWebSocketCommand`; a successful result is returned
at once, while any unsuccessful result — the WebSocket phase raises
nothing — falls through the `try` block into the HTTP-fallback candidate
loop.  The constructor records the WebSocket error message that was
discarded on the way to the fallback. -/
def fahRequestWriteRoute (env : WsEnv) (endpoint : String) : WriteRouteResult :=
  let mapped := mapEndpointCommand endpoint
  let result := fahWebSocketCommand env mapped.1 mapped.2
  if result.success then .returnedFromWs result
  else .attemptedHttpFallback result.errMsg

/-- Outcome of the config POST route. -/
inductive ConfigRouteResult where
  | jsonSuccess : ConfigRouteResult
  | errorAsData : String → ConfigRouteResult
deriving DecidableEq

/-- The `config` POST branch of the proxy route (server.js lines 552-580):
the `config` command goes directly through `fahWebSocketCommand` and an
unsuccessful result is answered as a 200 response carrying the error
message as data — this branch never reaches `fahRequest` and hence never
reaches the HTTP fallback. -/
def configPostRoute (env : WsEnv) (cfg : JSValue) : ConfigRouteResult :=
  let result := fahWebSocketCommand env "config" [("config", cfg)]
  if result.success then .jsonSuccess
  else .errorAsData (result.errMsg.getD "Failed to save config")

/-! ## The normalized-key rule -/

/-- A raw hyphenated key in the sense of the normalized-key rule: a string
of length at most 16 that contains a hyphen. -/
def isBadKey (s : String) : Bool := s.length ≤ 16 && s.data.contains '-'

mutual

/-- Every map key present anywhere in the value satisfies the
normalized-key rule. -/
def docClean : JSValue → Bool
  | .arr xs => elemsClean xs
  | .obj fs => fieldsClean fs
  | _ => true

def elemsClean : List JSValue → Bool
  | [] => true
  | x :: xs => docClean x && elemsClean xs

def fieldsClean : List (String × JSValue) → Bool
  | [] => true
  | (k, v) :: fs => !isBadKey k && docClean v && fieldsClean fs

end

/-- An update element that may serve as a path segment or final key without
introducing a raw hyphenated key: a string (short strings are normalized,
longer ones exceed the rule's length bound) or a non-negative integer
(whose property form is all digits).  A negative integer used as an object
key would coerce to a short hyphenated property such as `-5`. -/
def goodKeyElem : JSValue → Bool
  | .str _ => true
  | .num n => decide (0 ≤ n)
  | _ => false

/-- An update operation that introduces no raw hyphenated key of its own:
every element before the last one (the path segments and the final key) is
a string or non-negative integer, and the final value carries no raw
hyphenated key inside it.  Operations that the patcher rejects as
malformed are unconstrained. -/
def cleanUpdate : JSValue → Bool
  | .arr elems =>
      if elems.length < 2 then true
      else
        (elems.take (elems.length - 2)).all goodKeyElem &&
        goodKeyElem (elems.getD (elems.length - 2) .null) &&
        docClean (elems.getD (elems.length - 1) .null)
  | _ => true

/-- An inbound frame that introduces no raw hyphenated key: a full-state
object frame must itself be clean (it is stored verbatim), an update frame
must be a clean update, and scalar frames never touch the store. -/
def cleanFrame : JSValue → Bool
  | .arr elems => cleanUpdate (.arr elems)
  | .obj fs => fieldsClean fs
  | _ => true

/-- Cleanliness of an optional stored document (`none` = nothing stored
yet). -/
def optClean : Option JSValue → Bool
  | none => true
  | some d => docClean d

/-! ## Store-passing embedding of `applyStateUpdate`

JavaScript objects and arrays are heap references and the patcher mutates
them in place; the pure embedding above models the net value.  To settle
the no-aliasing guarantee (the working copy of line 99 protects the
caller's document) the same lines of server.js are embedded a second time
over an explicit store: containers live at addresses, every field or
element is a scalar or a reference, and each in-place JS mutation is a
store write at the mutated container's address. -/

/-- A primitive (non-container) JS value. -/
inductive JSPrim where
  | pnull : JSPrim
  | pbool : Bool → JSPrim
  | pnum : Int → JSPrim
  | pstr : String → JSPrim
deriving DecidableEq

/-- The JSON value of a primitive. -/
def JSPrim.toJS : JSPrim → JSValue
  | .pnull => .null
  | .pbool b => .bool b
  | .pnum n => .num n
  | .pstr s => .str s

/-- A slot of a stored container: a primitive or a reference to another
container. -/
inductive SVal where
  | prim : JSPrim → SVal
  | ref : Nat → SVal
deriving DecidableEq

/-- A heap container: an object node or an array node. -/
inductive SNode where
  | sobj : List (String × SVal) → SNode
  | sarr : List SVal → SNode
deriving DecidableEq

/-- The heap: most recent write first, plus the next fresh address. -/
structure Store where
  mem : List (Nat × SNode)
  next : Nat
deriving DecidableEq

/-- Current node at an address (first, i.e. most recent, binding). -/
def lookupMem : List (Nat × SNode) → Nat → Option SNode
  | [], _ => none
  | (b, node) :: mem, a => if b = a then some node else lookupMem mem a

/-- Overwrite the node at an (existing) address. -/
def writeStore (s : Store) (a : Nat) (node : SNode) : Store :=
  ⟨(a, node) :: s.mem, s.next⟩

/-- Allocate a fresh container. -/
def allocStore (s : Store) (node : SNode) : Store × Nat :=
  (⟨(s.next, node) :: s.mem, s.next + 1⟩, s.next)

/-- Serialize the container at an address back to a JSON tree
(`JSON.stringify` of a reachable, acyclic heap value).  The fuel bounds
the reference depth; any fuel larger than the address suffices on a
well-formed store. -/
def readBackAddr (s : Store) : Nat → Nat → JSValue
  | 0, _ => .null
  | fuel + 1, a =>
      match lookupMem s.mem a with
      | none => .null
      | some (.sobj fs) =>
          .obj (fs.map (fun kv =>
            (kv.1, match kv.2 with
                   | .prim p => p.toJS
                   | .ref b => readBackAddr s fuel b)))
      | some (.sarr es) =>
          .arr (es.map (fun v =>
            match v with
            | .prim p => p.toJS
            | .ref b => readBackAddr s fuel b))

/-- Serialize a slot value back to a JSON tree. -/
def readSVal (s : Store) (fuel : Nat) : SVal → JSValue
  | .prim p => p.toJS
  | .ref a => readBackAddr s fuel a

mutual

/-- Materialize a JSON tree in the heap (`JSON.parse`): children are
allocated before their parent, so every fresh node only references
earlier fresh addresses. -/
def allocVal (s : Store) : JSValue → Store × SVal
  | .null => (s, .prim .pnull)
  | .bool b => (s, .prim (.pbool b))
  | .num n => (s, .prim (.pnum n))
  | .str t => (s, .prim (.pstr t))
  | .arr xs =>
      let p := allocElems s xs
      let q := allocStore p.1 (.sarr p.2)
      (q.1, .ref q.2)
  | .obj fs =>
      let p := allocFields s fs
      let q := allocStore p.1 (.sobj p.2)
      (q.1, .ref q.2)

def allocElems (s : Store) : List JSValue → Store × List SVal
  | [] => (s, [])
  | x :: xs =>
      let p := allocVal s x
      let q := allocElems p.1 xs
      (q.1, p.2 :: q.2)

def allocFields (s : Store) :
    List (String × JSValue) → Store × List (String × SVal)
  | [] => (s, [])
  | (k, v) :: fs =>
      let p := allocVal s v
      let q := allocFields p.1 fs
      (q.1, (k, p.2) :: q.2)

end

/-- Property read `node[key]` on a heap container (same key semantics as
`jsGet`). -/
def getChildS (node : SNode) (key : JSValue) : Option SVal :=
  match node with
  | .sobj fs => lookupField fs (jsToString key)
  | .sarr es =>
      match strToIndex (jsToString key) with
      | some i => es.get? i
      | none => none

/-- Property write `node[key] = v` on a heap container (same key semantics
as `jsSet`). -/
def setChildS (node : SNode) (key : JSValue) (v : SVal) : SNode :=
  match node with
  | .sobj fs => .sobj (setField fs (jsToString key) v)
  | .sarr es =>
      match strToIndex (jsToString key) with
      | some i => .sarr (listSetExtend (SVal.prim .pnull) es i v)
      | none => .sarr es

/-- The fresh container created for a missing path segment
(`newContainerFor` at heap level, server.js lines 120-123). -/
def newNodeFor (nextElement : JSValue) : SNode :=
  match nextElement with
  | .num _ => .sarr []
  | _ => .sobj []

/-- The final update of server.js lines 141-173 as an in-place mutation of
the container at address `a`; the new value is materialized in the heap
exactly where the source stores it. -/
def applyFinalS (s : Store) (a : Nat) (node : SNode)
    (rawKey newValue : JSValue) : Store :=
  let targetKey := normalizePropertyKey rawKey
  match node with
  | .sarr es =>
      if targetKey = .num (-1) then
        let p := allocVal s newValue
        writeStore p.1 a (.sarr (es ++ [p.2]))
      else if targetKey = .num (-2) then
        match newValue with
        | .arr vs =>
            let p := allocElems s vs
            writeStore p.1 a (.sarr (es ++ p.2))
        | _ => s
      else if newValue = .null then
        match jsToNumber targetKey with
        | some t =>
            if 0 ≤ t ∧ t < (es.length : Int) then
              writeStore s a (.sarr (es.eraseIdx t.toNat))
            else s
        | none => s
      else
        match strToIndex (jsToString targetKey) with
        | some i =>
            let p := allocVal s newValue
            writeStore p.1 a (.sarr (listSetExtend (SVal.prim .pnull) es i p.2))
        | none => s
  | .sobj fs =>
      if newValue = .null then
        writeStore s a (.sobj (eraseField fs (jsToString targetKey)))
      else
        let p := allocVal s newValue
        writeStore p.1 a (.sobj (setField fs (jsToString targetKey) p.2))

/-- The traversal loop of server.js lines 104-139 at heap level: walk the
path from the working copy's root, creating and linking fresh containers
for missing (or `null`) segments, and finish with `applyFinalS`; `false`
is the `return currentState` rejection taken when a scalar blocks the
descent. -/
def traverseS (s : Store) (cur : SVal) (path : List JSValue)
    (rawKey finalValue : JSValue) : Store × Bool :=
  match path with
  | [] =>
      match cur with
      | .prim _ => (s, false)
      | .ref a =>
          match lookupMem s.mem a with
          | none => (s, false)
          | some node => (applyFinalS s a node rawKey finalValue, true)
  | p :: rest =>
      match cur with
      | .prim _ => (s, false)
      | .ref a =>
          match lookupMem s.mem a with
          | none => (s, false)
          | some node =>
              let pathKey := normalizePropertyKey p
              let nextElement := nextElementOf rest rawKey
              let existing :=
                match getChildS node pathKey with
                | some (SVal.prim JSPrim.pnull) => none
                | other => other
              match existing with
              | some child => traverseS s child rest rawKey finalValue
              | none =>
                  let q := allocStore s (newNodeFor nextElement)
                  let s2 := writeStore q.1 a (setChildS node pathKey (.ref q.2))
                  traverseS s2 (.ref q.2) rest rawKey finalValue

/-- `applyStateUpdate` (server.js lines 87-176) over the explicit heap:
reject short or non-array operations with the caller's own reference;
replace a non-object state by a fresh empty object (lines 94-96); build
the working copy by serializing and re-materializing the state (line 99,
`JSON.parse(JSON.stringify(currentState))`); run the traversal on the
copy; return the copy's root on success and the (possibly reinitialized)
current state on rejection. -/
def applyStateUpdateS (s : Store) (root : SVal) (op : JSValue) :
    Store × SVal :=
  match op with
  | .arr elems =>
      if elems.length < 2 then (s, root)
      else
        let p :=
          match root with
          | SVal.ref a =>
              match lookupMem s.mem a with
              | some (SNode.sobj _) => (s, root)
              | _ =>
                  let q := allocStore s (SNode.sobj [])
                  (q.1, SVal.ref q.2)
          | SVal.prim _ =>
              let q := allocStore s (SNode.sobj [])
              (q.1, SVal.ref q.2)
        let s1 := p.1
        let root1 := p.2
        let doc := readSVal s1 s1.next root1
        let q := allocVal s1 doc
        let s2 := q.1
        let cloneRoot := q.2
        let path := elems.take (elems.length - 2)
        let rawKey := elems.getD (elems.length - 2) JSValue.null
        let finalValue := elems.getD (elems.length - 1) JSValue.null
        let r := traverseS s2 cloneRoot path rawKey finalValue
        if r.2 then (r.1, cloneRoot) else (r.1, root1)
  | _ => (s, root)

/-- Shape test of server.js lines 89-91: updates the patcher rejects at
once (not sequence-shaped, or fewer than 2 elements). -/
def malformedUpdate : JSValue → Bool
  | .arr elems => decide (elems.length < 2)
  | _ => true

/-- Every reference of a node points strictly below an address bound
(acyclicity certificate: serialization descends through strictly smaller
addresses). -/
def nodeRefsLt (node : SNode) (a : Nat) : Bool :=
  match node with
  | .sobj fs =>
      fs.all (fun kv =>
        match kv.2 with
        | SVal.prim _ => true
        | SVal.ref b => decide (b < a))
  | .sarr es =>
      es.all (fun v =>
        match v with
        | SVal.prim _ => true
        | SVal.ref b => decide (b < a))

/-- A well-formed heap: every binding sits below the allocation watermark
and only references strictly smaller addresses. -/
def wfStore (s : Store) : Bool :=
  s.mem.all (fun e => decide (e.1 < s.next) && nodeRefsLt e.2 e.1)

/-- A root value whose reference (if any) is below the watermark. -/
def svalBound (v : SVal) (n : Nat) : Bool :=
  match v with
  | SVal.prim _ => true
  | SVal.ref a => decide (a < n)

/-- Two heaps agree on every address below `n`. -/
def agreesBelow (s s2 : Store) (n : Nat) : Prop :=
  ∀ a, a < n → lookupMem s2.mem a = lookupMem s.mem a

/-- A slot references (if at all) only addresses at or above `n`. -/
def svalGe (v : SVal) (n : Nat) : Prop :=
  ∀ b, v = SVal.ref b → n ≤ b

/-- Every reference of a node points at or above `n`. -/
def nodeRefsGe (node : SNode) (n : Nat) : Prop :=
  match node with
  | SNode.sobj fs => ∀ kv ∈ fs, svalGe kv.2 n
  | SNode.sarr es => ∀ v ∈ es, svalGe v n

/-- The region at or above `n` is closed: every node stored there
references only addresses at or above `n` (a traversal entering the
working copy never leaves it). -/
def highStore (s : Store) (n : Nat) : Prop :=
  ∀ a node, n ≤ a → lookupMem s.mem a = some node → nodeRefsGe node n

/-- One algorithm step leaves the region below `n` untouched: the
watermark only grows, every address below `n` is unchanged, and the high
region stays closed. -/
def StoreStep (s s2 : Store) (n : Nat) : Prop :=
  s.next ≤ s2.next ∧ agreesBelow s s2 n ∧ highStore s2 n

/-! ## Supporting lemmas -/

theorem lookupAssoc_eraseAssoc {β : Type} (l : List (String × β))
    (key : String) : lookupAssoc (eraseAssoc l key) key = none := by
  induction l with
  | nil => rfl
  | cons p l ih =>
      by_cases h : p.1 = key
      · simpa [eraseAssoc, List.filter_cons, h] using ih
      · simpa [eraseAssoc, List.filter_cons, h, lookupAssoc] using ih

theorem eraseField_lookup_none {β : Type} (fs : List (String × β))
    (key : String) (h : lookupField fs key = none) : eraseField fs key = fs := by
  induction fs with
  | nil => rfl
  | cons kv fs ih =>
      obtain ⟨k, v⟩ := kv
      by_cases hk : k = key
      · simp [lookupField, hk] at h
      · simp only [lookupField, if_neg hk] at h
        simp [eraseField, hk, ih h]

/-! ## Claim theorems -/

/-- C5: for every document and every operation value that is not
sequence-shaped or has fewer than 2 elements, `applyStateUpdate` returns
the input document unchanged and raises no error: the operation is a
no-op, not a failure. -/
theorem claim5_short_update_is_noop :
    ∀ (d op : JSValue), malformedUpdate op = true → applyStateUpdate d op = d := by
  intro d op h
  cases op with
  | arr elems =>
      simp only [malformedUpdate, decide_eq_true_eq] at h
      simp [applyStateUpdate, h]
  | null => rfl
  | bool b => rfl
  | num n => rfl
  | str s => rfl
  | obj fs => rfl

/-- C5 witness: a one-element operation leaves a concrete document
untouched. -/
theorem claim5_short_update_is_noop_witness :
    malformedUpdate (.arr [.str "x"]) = true ∧
    applyStateUpdate (.obj [("a", .num 1)]) (.arr [.str "x"]) =
      .obj [("a", .num 1)] :=
  ⟨by decide, claim5_short_update_is_noop (.obj [("a", .num 1)])
    (.arr [.str "x"]) (by decide)⟩

/-- C8: a logical pause maps to the command named `state` with payload
field `state: pause`, and a logical resume (`unpause`) maps to the same
command name with payload field `state: fold` — not the literal word
`resume` or `unpause` — in the frame `fahWebSocketCommand` sends. -/
theorem claim8_pause_resume_command_mapping :
    ∀ time : String,
      buildCommandFrame (mapEndpointCommand "pause").1 time
          (mapEndpointCommand "pause").2 =
        .obj [("cmd", .str "state"), ("time", .str time),
              ("state", .str "pause")] ∧
      buildCommandFrame (mapEndpointCommand "unpause").1 time
          (mapEndpointCommand "unpause").2 =
        .obj [("cmd", .str "state"), ("time", .str time),
              ("state", .str "fold")] := by
  intro time
  exact ⟨rfl, rfl⟩

/-- C9: after a transport close or transport error event for a connection
key, both the connection handle and the synchronized document are removed
from the registry: a `currentDocument` read returns absent, and a
subsequent acquire decides for a full new handshake instead of reusing
stale state. -/
theorem claim9_teardown_clears_registry :
    ∀ (r : Registry) (key : String) (ev : TransportEvent),
      currentDocument (onTransportEvent r key ev) key = none ∧
      lookupAssoc (onTransportEvent r key ev).fahConnections key = none ∧
      acquireStep (onTransportEvent r key ev) key =
        AcquireStep.freshHandshake := by
  intro r key ev
  refine ⟨lookupAssoc_eraseAssoc _ _, lookupAssoc_eraseAssoc _ _, ?_⟩
  simp [acquireStep, onTransportEvent, lookupAssoc_eraseAssoc]

/-- C3 counterexample: with the operation `["a", -1, "x"]` on an empty
document, the element following the missing segment `"a"` is `-1` — an
integer that is not a non-negative index — yet the code creates a list
(`{"a": ["x"]}`), not the map (`{"a": {"-1": "x"}}`) the claim's
non-negative-integer rule mandates. -/
theorem claim3_counterexample :
    applyStateUpdate (.obj []) (.arr [.str "a", .num (-1), .str "x"]) =
      .obj [("a", .arr [.str "x"])] ∧
    JSValue.obj [("a", .arr [.str "x"])] ≠
      JSValue.obj [("a", .obj [("-1", .str "x")])] := by
  exact ⟨by decide, by decide⟩

/-- C3 (amended): a missing path segment is created as a list exactly when
the next element of the operation is an integer — negative integers
included — and as a map otherwise; in particular `["groups", 0, "name",
"x"]` on an empty document yields a list under `groups`. -/
theorem claim3_amended_creation_rule :
    (∀ n : Int, newContainerFor (.num n) = .arr []) ∧
    (∀ v : JSValue, (∀ n : Int, v ≠ .num n) → newContainerFor v = .obj []) ∧
    applyStateUpdate (.obj [])
        (.arr [.str "groups", .num 0, .str "name", .str "x"]) =
      .obj [("groups", .arr [.obj [("name", .str "x")]])] := by
  refine ⟨fun n => rfl, ?_, by decide⟩
  intro v h
  cases v with
  | num n => exact absurd rfl (h n)
  | null => rfl
  | bool b => rfl
  | str s => rfl
  | arr xs => rfl
  | obj fs => rfl

/-- C3 amended witness: a string next-element creates a map. -/
theorem claim3_amended_creation_rule_witness :
    newContainerFor (.str "name") = .obj [] :=
  claim3_amended_creation_rule.2.1 (.str "name") (fun n h => by cases h)

/-- C2 counterexample: a full-state map frame is stored verbatim, so the
reachable document after the single frame `\x7b"work-unit": 1\x7d` contains the
raw hyphenated key `work-unit` (length 9 ≤ 16), violating the
normalized-key invariant as claimed for all reachable documents. -/
theorem claim2_counterexample :
    foldFrames [.obj [("work-unit", .num 1)]] =
      some (.obj [("work-unit", .num 1)]) ∧
    docClean (.obj [("work-unit", .num 1)]) = false := by
  exact ⟨rfl, by decide⟩

/-- C1 counterexample: with the connection acquired and the command frame
sent successfully (`connOk`) but no document present after the settle
delay, the `pause` route does not stop at the `No machine state available`
failure — `fahRequest` falls through into the HTTP fallback candidate
loop. -/
theorem claim1_counterexample :
    fahRequestWriteRoute ⟨ConnOutcome.connOk, none⟩ "pause" =
      WriteRouteResult.attemptedHttpFallback
        (some "No machine state available") := by
  rfl

/-- C1 (amended): when a pause/unpause command's send succeeds but no
document is present after the settle delay, `fahWebSocketCommand` returns
the `No machine state available` failure as data and `fahRequest` then
proceeds to the HTTP fallback (the fallback is reached for every
unsuccessful WebSocket result, connection-level or not); only the
push-config route returns the failure as data without attempting the
fallback. -/
theorem claim1_amended_fallback_behavior :
    ∀ (env : WsEnv) (cfg : JSValue),
      env.conn = ConnOutcome.connOk → env.docAfterSettle = none →
      fahRequestWriteRoute env "pause" =
        WriteRouteResult.attemptedHttpFallback
          (some "No machine state available") ∧
      fahRequestWriteRoute env "unpause" =
        WriteRouteResult.attemptedHttpFallback
          (some "No machine state available") ∧
      configPostRoute env cfg =
        ConfigRouteResult.errorAsData "No machine state available" ∧
      fahRequestWriteRoute ⟨ConnOutcome.connRefused, none⟩ "pause" =
        WriteRouteResult.attemptedHttpFallback
          (some "Connection refused or timed out") := by
  intro env cfg h1 h2
  obtain ⟨c, d⟩ := env
  simp only at h1 h2
  subst h1
  subst h2
  exact ⟨rfl, rfl, rfl, rfl⟩

/-- C1 amended witness at the concrete no-document environment. -/
theorem claim1_amended_fallback_behavior_witness :
    fahRequestWriteRoute ⟨ConnOutcome.connOk, none⟩ "unpause" =
      WriteRouteResult.attemptedHttpFallback
        (some "No machine state available") ∧
    configPostRoute ⟨ConnOutcome.connOk, none⟩ .null =
      ConfigRouteResult.errorAsData "No machine state available" :=
  ⟨(claim1_amended_fallback_behavior ⟨ConnOutcome.connOk, none⟩ .null rfl
      rfl).2.1,
   (claim1_amended_fallback_behavior ⟨ConnOutcome.connOk, none⟩ .null rfl
      rfl).2.2.1⟩

/-- C6: on a list at the operation's final position, final key `-1`
appends the value, final key `-2` appends every element of a list value in
order, and final key `-2` with a non-list value appends nothing; with the
claimed concrete steps from `[1,2]` through `[1,2,3]` to `[1,2,3,4,5]`. -/
theorem claim6_list_append_semantics :
    (∀ (xs : List JSValue) (v : JSValue),
        applyFinal (.arr xs) (.num (-1)) v = .arr (xs ++ [v])) ∧
    (∀ (xs vs : List JSValue),
        applyFinal (.arr xs) (.num (-2)) (.arr vs) = .arr (xs ++ vs)) ∧
    (∀ (xs : List JSValue) (v : JSValue), (∀ ws, v ≠ .arr ws) →
        applyFinal (.arr xs) (.num (-2)) v = .arr xs) ∧
    applyStateUpdate (.obj [("u", .arr [.num 1, .num 2])])
        (.arr [.str "u", .num (-1), .num 3]) =
      .obj [("u", .arr [.num 1, .num 2, .num 3])] ∧
    applyStateUpdate (.obj [("u", .arr [.num 1, .num 2, .num 3])])
        (.arr [.str "u", .num (-2), .arr [.num 4, .num 5]]) =
      .obj [("u", .arr [.num 1, .num 2, .num 3, .num 4, .num 5])] ∧
    applyStateUpdate (.obj [("u", .arr [.num 1, .num 2])])
        (.arr [.str "u", .num (-2), .num 9]) =
      .obj [("u", .arr [.num 1, .num 2])] := by
  refine ⟨?_, ?_, ?_, by decide, by decide, by decide⟩
  · intro xs v
    simp [applyFinal, normalizePropertyKey]
  · intro xs vs
    simp [applyFinal, normalizePropertyKey]
  · intro xs v h
    cases v with
    | arr ws => exact absurd rfl (h ws)
    | null => simp [applyFinal, normalizePropertyKey]
    | bool b => simp [applyFinal, normalizePropertyKey]
    | num n => simp [applyFinal, normalizePropertyKey]
    | str s => simp [applyFinal, normalizePropertyKey]
    | obj fs => simp [applyFinal, normalizePropertyKey]

/-- C6 witness: the bulk-append no-op at a concrete non-list value. -/
theorem claim6_list_append_semantics_witness :
    applyFinal (.arr [.num 1, .num 2]) (.num (-2)) (.num 9) =
      .arr [.num 1, .num 2] :=
  claim6_list_append_semantics.2.2.1 [.num 1, .num 2] (.num 9)
    (fun ws h => by cases h)

/-- C7: when the final parent is a map, a null final value removes the
final key (and removing an absent key leaves the map unchanged); when the
final parent is a list, a non-negative in-range integer final key with a
null value removes the element at that index, and an out-of-range index is
a silent no-op. -/
theorem claim7_delete_semantics :
    applyStateUpdate (.obj [("a", .num 1), ("b", .num 2)])
        (.arr [.str "b", .null]) = .obj [("a", .num 1)] ∧
    applyStateUpdate (.obj [("a", .num 1)]) (.arr [.str "b", .null]) =
      .obj [("a", .num 1)] ∧
    (∀ (fs : List (String × JSValue)) (key : JSValue),
        lookupField fs (jsToString (normalizePropertyKey key)) = none →
        applyFinal (.obj fs) key .null = .obj fs) ∧
    (∀ (xs : List JSValue) (i : Nat), i < xs.length →
        applyFinal (.arr xs) (.num (i : Int)) .null = .arr (xs.eraseIdx i)) ∧
    (∀ (xs : List JSValue) (i : Nat), xs.length ≤ i →
        applyFinal (.arr xs) (.num (i : Int)) .null = .arr xs) := by
  refine ⟨by decide, by decide, ?_, ?_, ?_⟩
  · intro fs key h
    have he : applyFinal (.obj fs) key .null =
        .obj (eraseField fs (jsToString (normalizePropertyKey key))) := by
      simp [applyFinal]
    rw [he, eraseField_lookup_none fs _ h]
  · intro xs i h
    have h1 : (JSValue.num (i : Int) = JSValue.num (-1)) = False := by
      simp only [JSValue.num.injEq, eq_iff_iff, iff_false]
      omega
    have h2 : (JSValue.num (i : Int) = JSValue.num (-2)) = False := by
      simp only [JSValue.num.injEq, eq_iff_iff, iff_false]
      omega
    have hcond : (0 ≤ (i : Int) ∧ (i : Int) < (xs.length : Int)) = True := by
      simp only [eq_iff_iff, iff_true]
      exact ⟨Int.ofNat_nonneg i, by exact_mod_cast h⟩
    simp [applyFinal, normalizePropertyKey, jsToNumber, h1, h2, hcond]
    intro hle
    exact absurd hle (by omega)
  · intro xs i h
    have h1 : (JSValue.num (i : Int) = JSValue.num (-1)) = False := by
      simp only [JSValue.num.injEq, eq_iff_iff, iff_false]
      omega
    have h2 : (JSValue.num (i : Int) = JSValue.num (-2)) = False := by
      simp only [JSValue.num.injEq, eq_iff_iff, iff_false]
      omega
    have hcond : (0 ≤ (i : Int) ∧ (i : Int) < (xs.length : Int)) = False := by
      simp only [eq_iff_iff, iff_false]
      intro hc
      have hlt := hc.2
      omega
    simp [applyFinal, normalizePropertyKey, jsToNumber, h1, h2, hcond]
    intro
    omega

theorem applyPathFuel_eq (path : List JSValue) :
    ∀ (fuel : Nat) (container rawKey finalValue : JSValue),
      path.length ≤ fuel →
      applyPathFuel fuel container path rawKey finalValue =
        some (applyPath container path rawKey finalValue) := by
  induction path with
  | nil =>
      intro fuel c k v _
      simp only [applyPathFuel, applyPath]
  | cons p rest ih =>
      intro fuel c k v h
      cases fuel with
      | zero => simp at h
      | succ fuel =>
          have hlen : rest.length ≤ fuel := by
            simpa using Nat.le_of_succ_le_succ (by simpa using h)
          by_cases hc : isContainer c = true
          · simp only [applyPathFuel, applyPath, hc, if_true]
            rw [ih fuel _ k v hlen]
            cases applyPath
                (pathStepChild c (normalizePropertyKey p)
                  (nextElementOf rest k)) rest k v with
            | none => rfl
            | some c2 => rfl
          · simp only [applyPathFuel, applyPath]
            rw [if_neg hc, if_neg hc]

/-- C10: `applyStateUpdate` is total on JSON-representable inputs — for
every document value and operation value, running the traversal with a
loop budget equal to the operation's length succeeds (the loop is bounded
by the operation's length) and yields the function's value, with no error
case; and every non-container encountered on the path, including at the
final position, takes the early-return branch instead of failing. -/
theorem claim10_total_bounded_by_length :
    (∀ (d op : JSValue),
        applyStateUpdateFuel d op = some (applyStateUpdate d op)) ∧
    (∀ (container : JSValue) (path : List JSValue) (rawKey v : JSValue),
        isContainer container = false →
        applyPath container path rawKey v = none) := by
  constructor
  · intro d op
    cases op with
    | arr elems =>
        by_cases hlen : elems.length < 2
        · simp [applyStateUpdateFuel, applyStateUpdate, hlen]
        · have htk : (elems.take (elems.length - 2)).length ≤ elems.length := by
            simp [List.length_take]
          simp only [applyStateUpdateFuel, applyStateUpdate, hlen, if_false]
          rw [applyPathFuel_eq _ elems.length _ _ _ htk]
          cases applyPath (stateBase d) (elems.take (elems.length - 2))
              (elems.getD (elems.length - 2) JSValue.null)
              (elems.getD (elems.length - 1) JSValue.null) with
          | none => rfl
          | some r => rfl
    | null => rfl
    | bool b => rfl
    | num n => rfl
    | str s => rfl
    | obj fs => rfl
  · intro c path k v hc
    cases path with
    | nil => simp [applyPath, hc]
    | cons p rest => simp [applyPath, hc]

/-- C10 witness: the fuelled run at a concrete document and operation, and
the early return at a concrete scalar blocking the path. -/
theorem claim10_total_bounded_by_length_witness :
    applyStateUpdateFuel (.obj [("a", .num 1)])
        (.arr [.str "a", .str "b", .num 2]) =
      some (applyStateUpdate (.obj [("a", .num 1)])
        (.arr [.str "a", .str "b", .num 2])) ∧
    applyPath (.num 5) [.str "a"] (.str "b") (.num 2) = none :=
  ⟨claim10_total_bounded_by_length.1 (.obj [("a", .num 1)])
      (.arr [.str "a", .str "b", .num 2]),
   claim10_total_bounded_by_length.2 (.num 5) [.str "a"] (.str "b") (.num 2)
      (by decide)⟩

theorem contains_hyphen_map_normChar (l : List Char) :
    (l.map normChar).contains '-' = false := by
  have hm : ¬ ('-' ∈ l.map normChar) := by
    intro hmem
    obtain ⟨c, _, he⟩ := List.mem_map.mp hmem
    by_cases h : c = '-'
    · rw [normChar, if_pos h] at he
      exact absurd he (by decide)
    · rw [normChar, if_neg h] at he
      exact h he
  simpa using hm

theorem decDigit_ne_hyphen (d : Nat) : decDigit d ≠ '-' := by
  unfold decDigit
  have hr : d % 10 < 10 := Nat.mod_lt _ (by norm_num)
  interval_cases h : d % 10 <;> decide

theorem natDigitsAux_no_hyphen (fuel : Nat) :
    ∀ (n : Nat) (acc : List Char), '-' ∉ acc →
      '-' ∉ natDigitsAux fuel n acc := by
  induction fuel with
  | zero => intro n acc h; exact h
  | succ fuel ih =>
      intro n acc h
      cases n with
      | zero => exact h
      | succ n =>
          refine ih _ _ ?_
          intro hmem
          rcases List.mem_cons.mp hmem with he | hmem2
          · exact decDigit_ne_hyphen _ he.symm
          · exact h hmem2

theorem natToString_no_hyphen (n : Nat) :
    (natToString n).data.contains '-' = false := by
  unfold natToString
  by_cases h : n = 0
  · rw [if_pos h]; decide
  · rw [if_neg h]
    have hm : '-' ∉ natDigitsAux n n [] :=
      natDigitsAux_no_hyphen n n [] (by simp)
    simpa using hm

theorem isBadKey_norm_str (s : String) :
    isBadKey (jsToString (normalizePropertyKey (.str s))) = false := by
  simp only [normalizePropertyKey]
  by_cases h : 0 < s.length ∧ s.length ≤ 16
  · rw [if_pos h]
    simp only [jsToString]
    unfold isBadKey
    rw [show (String.mk (s.data.map normChar)).data = s.data.map normChar
      from rfl]
    rw [contains_hyphen_map_normChar]
    simp
  · rw [if_neg h]
    simp only [jsToString]
    unfold isBadKey
    rcases Nat.lt_or_ge 16 s.length with hlen | hlen
    · rw [decide_eq_false (by omega : ¬ s.length ≤ 16)]
      simp
    · have hz : s.length = 0 := by
        by_contra hnz
        exact h ⟨Nat.pos_of_ne_zero hnz, hlen⟩
      have hdata : s.data = [] := by
        apply List.length_eq_zero.mp
        exact hz
      rw [hdata]
      simp

theorem isBadKey_nonneg_num (n : Int) (h : 0 ≤ n) :
    isBadKey (jsToString (normalizePropertyKey (.num n))) = false := by
  show isBadKey (intToString n) = false
  unfold intToString
  rw [if_neg (by omega : ¬ n < 0)]
  unfold isBadKey
  rw [natToString_no_hyphen]
  simp

theorem isBadKey_goodKey (k : JSValue) (h : goodKeyElem k = true) :
    isBadKey (jsToString (normalizePropertyKey k)) = false := by
  cases k with
  | str s => exact isBadKey_norm_str s
  | num n =>
      exact isBadKey_nonneg_num n (by simpa [goodKeyElem] using h)
  | null => simp [goodKeyElem] at h
  | bool b => simp [goodKeyElem] at h
  | arr xs => simp [goodKeyElem] at h
  | obj fs => simp [goodKeyElem] at h

theorem elemsClean_append (xs ys : List JSValue) :
    elemsClean (xs ++ ys) = (elemsClean xs && elemsClean ys) := by
  induction xs with
  | nil => simp [elemsClean]
  | cons x xs ih => simp [elemsClean, ih, Bool.and_assoc]

theorem elemsClean_replicate_null (n : Nat) :
    elemsClean (List.replicate n .null) = true := by
  induction n with
  | zero => rfl
  | succ n ih => simpa [List.replicate, elemsClean, docClean] using ih

theorem lookupField_clean (fs : List (String × JSValue)) (key : String)
    (v : JSValue) (hc : fieldsClean fs = true)
    (hl : lookupField fs key = some v) : docClean v = true := by
  induction fs with
  | nil => simp [lookupField] at hl
  | cons kv fs ih =>
      obtain ⟨k, w⟩ := kv
      simp only [fieldsClean, Bool.and_eq_true] at hc
      by_cases hk : k = key
      · simp only [lookupField, if_pos hk, Option.some.injEq] at hl
        exact hl ▸ hc.1.2
      · simp only [lookupField, if_neg hk] at hl
        exact ih hc.2 hl

theorem get?_clean (xs : List JSValue) (i : Nat) (v : JSValue)
    (hc : elemsClean xs = true) (hg : xs.get? i = some v) :
    docClean v = true := by
  induction xs generalizing i with
  | nil => simp at hg
  | cons x xs ih =>
      simp only [elemsClean, Bool.and_eq_true] at hc
      cases i with
      | zero =>
          simp only [List.get?] at hg
          exact (Option.some.injEq _ _ ▸ hg) ▸ hc.1
      | succ i =>
          simp only [List.get?] at hg
          exact ih i hc.2 hg

theorem jsGet_clean (c k v : JSValue) (hc : docClean c = true)
    (hg : jsGet c k = some v) : docClean v = true := by
  cases c with
  | obj fs => exact lookupField_clean fs _ v (by simpa [docClean] using hc) hg
  | arr xs =>
      simp only [jsGet] at hg
      cases hi : strToIndex (jsToString k) with
      | none => rw [hi] at hg; simp at hg
      | some i =>
          rw [hi] at hg
          exact get?_clean xs i v (by simpa [docClean] using hc) hg
  | null => simp [jsGet] at hg
  | bool b => simp [jsGet] at hg
  | num n => simp [jsGet] at hg
  | str s => simp [jsGet] at hg

theorem setField_clean (fs : List (String × JSValue)) (key : String)
    (v : JSValue) (hc : fieldsClean fs = true) (hk : isBadKey key = false)
    (hv : docClean v = true) : fieldsClean (setField fs key v) = true := by
  induction fs with
  | nil => simp [setField, fieldsClean, hk, hv]
  | cons kv fs ih =>
      obtain ⟨k, w⟩ := kv
      simp only [fieldsClean, Bool.and_eq_true] at hc
      by_cases hkk : k = key
      · simp [setField, if_pos hkk, fieldsClean, hc.1.1, hv, hc.2]
      · simp [setField, if_neg hkk, fieldsClean, hc.1.1, hc.1.2, ih hc.2]

theorem eraseField_clean (fs : List (String × JSValue)) (key : String)
    (hc : fieldsClean fs = true) : fieldsClean (eraseField fs key) = true := by
  induction fs with
  | nil => exact hc
  | cons kv fs ih =>
      obtain ⟨k, w⟩ := kv
      simp only [fieldsClean, Bool.and_eq_true] at hc
      by_cases hkk : k = key
      · simp [eraseField, if_pos hkk, hc.2]
      · simp [eraseField, if_neg hkk, fieldsClean, hc.1.1, hc.1.2, ih hc.2]

theorem listSet_clean (xs : List JSValue) (i : Nat) (v : JSValue)
    (hc : elemsClean xs = true) (hv : docClean v = true) :
    elemsClean (xs.set i v) = true := by
  induction xs generalizing i with
  | nil => exact hc
  | cons x xs ih =>
      simp only [elemsClean, Bool.and_eq_true] at hc
      cases i with
      | zero => simp [List.set, elemsClean, hv, hc.2]
      | succ i => simp [List.set, elemsClean, hc.1, ih i hc.2]

theorem listSetExtend_clean (xs : List JSValue) (i : Nat) (v : JSValue)
    (hc : elemsClean xs = true) (hv : docClean v = true) :
    elemsClean (listSetExtend JSValue.null xs i v) = true := by
  unfold listSetExtend
  by_cases hlt : i < xs.length
  · rw [if_pos hlt]
    exact listSet_clean xs i v hc hv
  · rw [if_neg hlt]
    rw [elemsClean_append, elemsClean_append]
    simp [hc, elemsClean_replicate_null, elemsClean, hv]

theorem eraseIdx_clean (xs : List JSValue) (i : Nat)
    (hc : elemsClean xs = true) : elemsClean (xs.eraseIdx i) = true := by
  induction xs generalizing i with
  | nil => exact hc
  | cons x xs ih =>
      simp only [elemsClean, Bool.and_eq_true] at hc
      cases i with
      | zero => exact hc.2
      | succ i => simp [List.eraseIdx, elemsClean, hc.1, ih i hc.2]

theorem jsSet_clean (c k v : JSValue) (hc : docClean c = true)
    (hk : isBadKey (jsToString k) = false) (hv : docClean v = true) :
    docClean (jsSet c k v) = true := by
  cases c with
  | obj fs =>
      simp only [jsSet, docClean]
      exact setField_clean fs _ v (by simpa [docClean] using hc) hk hv
  | arr xs =>
      simp only [jsSet]
      cases hi : strToIndex (jsToString k) with
      | none => simpa [docClean] using hc
      | some i =>
          simp only [docClean]
          exact listSetExtend_clean xs i v (by simpa [docClean] using hc) hv
  | null => exact hc
  | bool b => exact hc
  | num n => exact hc
  | str s => exact hc

theorem newContainerFor_clean (x : JSValue) :
    docClean (newContainerFor x) = true := by
  cases x <;> rfl

theorem pathStepChild_clean (c pathKey nextElement : JSValue)
    (hc : docClean c = true) :
    docClean (pathStepChild c pathKey nextElement) = true := by
  unfold pathStepChild
  cases hg : jsGet c pathKey with
  | none => exact newContainerFor_clean nextElement
  | some w =>
      cases w with
      | null => exact newContainerFor_clean nextElement
      | bool b => exact jsGet_clean c pathKey _ hc hg
      | num n => exact jsGet_clean c pathKey _ hc hg
      | str s => exact jsGet_clean c pathKey _ hc hg
      | arr xs => exact jsGet_clean c pathKey _ hc hg
      | obj fs => exact jsGet_clean c pathKey _ hc hg

theorem applyFinal_clean (c rawKey v : JSValue) (hc : docClean c = true)
    (hk : isBadKey (jsToString (normalizePropertyKey rawKey)) = false)
    (hv : docClean v = true) : docClean (applyFinal c rawKey v) = true := by
  cases c with
  | arr xs =>
      have hxs : elemsClean xs = true := by simpa [docClean] using hc
      simp only [applyFinal]
      by_cases h1 : normalizePropertyKey rawKey = JSValue.num (-1)
      · rw [if_pos h1]
        simp [docClean, elemsClean_append, hxs, elemsClean, hv]
      · rw [if_neg h1]
        by_cases h2 : normalizePropertyKey rawKey = JSValue.num (-2)
        · rw [if_pos h2]
          cases v with
          | arr vs =>
              have hvs : elemsClean vs = true := by simpa [docClean] using hv
              simp [docClean, elemsClean_append, hxs, hvs]
          | null => exact hc
          | bool b => exact hc
          | num n => exact hc
          | str s => exact hc
          | obj fs => exact hc
        · rw [if_neg h2]
          by_cases h3 : v = JSValue.null
          · rw [if_pos h3]
            cases hj : jsToNumber (normalizePropertyKey rawKey) with
            | none => exact hc
            | some t =>
                show docClean (if 0 ≤ t ∧ t < (xs.length : Int) then
                    JSValue.arr (xs.eraseIdx t.toNat)
                  else JSValue.arr xs) = true
                by_cases h4 : 0 ≤ t ∧ t < (xs.length : Int)
                · rw [if_pos h4]
                  simp only [docClean]
                  exact eraseIdx_clean xs _ hxs
                · rw [if_neg h4]
                  exact hc
          · rw [if_neg h3]
            exact jsSet_clean (.arr xs) _ v hc hk hv
  | obj fs =>
      have hfs : fieldsClean fs = true := by simpa [docClean] using hc
      simp only [applyFinal]
      by_cases h1 : v = JSValue.null
      · rw [if_pos h1]
        simp only [docClean]
        exact eraseField_clean fs _ hfs
      · rw [if_neg h1]
        simp only [docClean]
        exact setField_clean fs _ v hfs hk hv
  | null => exact hc
  | bool b => exact hc
  | num n => exact hc
  | str s => exact hc

theorem applyPath_clean (path : List JSValue) :
    ∀ (c rawKey v r : JSValue), docClean c = true →
      path.all goodKeyElem = true → goodKeyElem rawKey = true →
      docClean v = true → applyPath c path rawKey v = some r →
      docClean r = true := by
  induction path with
  | nil =>
      intro c rawKey v r hc _ hk hv hp
      simp only [applyPath] at hp
      by_cases hcon : isContainer c = true
      · rw [if_pos hcon, Option.some.injEq] at hp
        exact hp ▸ applyFinal_clean c rawKey v hc (isBadKey_goodKey _ hk) hv
      · rw [if_neg hcon] at hp
        simp at hp
  | cons p rest ih =>
      intro c rawKey v r hc hall hk hv hp
      simp only [List.all_cons, Bool.and_eq_true] at hall
      simp only [applyPath] at hp
      by_cases hcon : isContainer c = true
      · rw [if_pos hcon] at hp
        cases hrec : applyPath
            (pathStepChild c (normalizePropertyKey p) (nextElementOf rest rawKey))
            rest rawKey v with
        | none => rw [hrec] at hp; simp at hp
        | some child2 =>
            rw [hrec, Option.some.injEq] at hp
            have hchild2 : docClean child2 = true :=
              ih _ rawKey v child2
                (pathStepChild_clean c _ _ hc) hall.2 hk hv hrec
            exact hp ▸ jsSet_clean c (normalizePropertyKey p) child2 hc
              (isBadKey_goodKey _ hall.1) hchild2
      · rw [if_neg hcon] at hp
        simp at hp

theorem stateBase_clean (d : JSValue) (hc : docClean d = true) :
    docClean (stateBase d) = true := by
  cases d <;> first | exact hc | rfl

theorem applyStateUpdate_clean (d op : JSValue) (hc : docClean d = true)
    (hop : cleanUpdate op = true) :
    docClean (applyStateUpdate d op) = true := by
  cases op with
  | arr elems =>
      by_cases hlen : elems.length < 2
      · simpa [applyStateUpdate, hlen] using hc
      · simp only [cleanUpdate, if_neg hlen, Bool.and_eq_true] at hop
        simp only [applyStateUpdate, if_neg hlen]
        cases hp : applyPath (stateBase d) (elems.take (elems.length - 2))
            (elems.getD (elems.length - 2) JSValue.null)
            (elems.getD (elems.length - 1) JSValue.null) with
        | none => exact stateBase_clean d hc
        | some r =>
            exact applyPath_clean _ _ _ _ r (stateBase_clean d hc)
              hop.1.1 hop.1.2 hop.2 hp
  | null => exact hc
  | bool b => exact hc
  | num n => exact hc
  | str s => exact hc
  | obj fs => exact hc

theorem messageHandlerStep_clean (cur : Option JSValue) (f : JSValue)
    (hc : optClean cur = true) (hf : cleanFrame f = true) :
    optClean (messageHandlerStep cur f) = true := by
  cases f with
  | arr elems =>
      have hop : cleanUpdate (.arr elems) = true := by simpa [cleanFrame] using hf
      cases cur with
      | none =>
          show docClean (applyStateUpdate (JSValue.obj []) (.arr elems)) = true
          exact applyStateUpdate_clean _ _ rfl hop
      | some d =>
          cases d with
          | obj fs =>
              show docClean (applyStateUpdate (JSValue.obj fs) (.arr elems)) = true
              exact applyStateUpdate_clean _ _ (by simpa [optClean] using hc) hop
          | arr xs =>
              show docClean (applyStateUpdate (JSValue.arr xs) (.arr elems)) = true
              exact applyStateUpdate_clean _ _ (by simpa [optClean] using hc) hop
          | null =>
              show docClean (applyStateUpdate (JSValue.obj []) (.arr elems)) = true
              exact applyStateUpdate_clean _ _ rfl hop
          | bool b =>
              show docClean (applyStateUpdate (JSValue.obj []) (.arr elems)) = true
              exact applyStateUpdate_clean _ _ rfl hop
          | num n =>
              show docClean (applyStateUpdate (JSValue.obj []) (.arr elems)) = true
              exact applyStateUpdate_clean _ _ rfl hop
          | str t =>
              show docClean (applyStateUpdate (JSValue.obj []) (.arr elems)) = true
              exact applyStateUpdate_clean _ _ rfl hop
  | obj fs => simpa [messageHandlerStep, optClean, docClean, cleanFrame] using hf
  | null => exact hc
  | bool b => exact hc
  | num n => exact hc
  | str s => exact hc

/-- C2 (amended): keys are normalized only where the patcher writes them
(path segments and final keys); full-state frames and operation values are
stored verbatim.  In the preserved form: when every inbound frame carries
no raw hyphenated key of its own — full-state object frames are clean, and
update operations have string or non-negative-integer path/key elements
and clean final values — every reachable stored document satisfies the
normalized-key rule. -/
theorem claim2_amended_clean_preservation :
    ∀ frames : List JSValue, frames.all cleanFrame = true →
      optClean (foldFrames frames) = true := by
  have haux : ∀ (frames : List JSValue) (cur : Option JSValue),
      optClean cur = true → frames.all cleanFrame = true →
      optClean (frames.foldl messageHandlerStep cur) = true := by
    intro frames
    induction frames with
    | nil => intro cur hc _; exact hc
    | cons f frames ih =>
        intro cur hc hall
        simp only [List.all_cons, Bool.and_eq_true] at hall
        exact ih _ (messageHandlerStep_clean cur f hc hall.1) hall.2
  intro frames hall
  exact haux frames none rfl hall

/-- C2 amended witness: a clean full-state frame followed by a clean
update operation (with a hyphenated short key that the patcher normalizes)
yields a clean stored document. -/
theorem claim2_amended_clean_preservation_witness :
    optClean (foldFrames [.obj [("work_unit", .num 1)],
      .arr [.str "cpu-usage", .num 7]]) = true :=
  claim2_amended_clean_preservation
    [.obj [("work_unit", .num 1)], .arr [.str "cpu-usage", .num 7]]
    (by decide)

/-- C7 witness: delete at in-range index 1 of a 2-element list, no-op at
index 5, and a missing-key map delete, all concrete. -/
theorem claim7_delete_semantics_witness :
    applyFinal (.arr [.num 7, .num 8]) (.num 1) .null = .arr [.num 7] ∧
    applyFinal (.arr [.num 7, .num 8]) (.num 5) .null =
      .arr [.num 7, .num 8] ∧
    applyFinal (.obj [("a", .num 1)]) (.str "b") .null =
      .obj [("a", .num 1)] :=
  ⟨claim7_delete_semantics.2.2.2.1 [.num 7, .num 8] 1 (by decide),
   claim7_delete_semantics.2.2.2.2 [.num 7, .num 8] 5 (by decide),
   claim7_delete_semantics.2.2.1 [("a", .num 1)] (.str "b") (by decide)⟩

/-! ### Heap lemmas for the no-aliasing theorem -/

theorem lookupMem_cons_self (mem : List (Nat × SNode)) (b : Nat)
    (node : SNode) : lookupMem ((b, node) :: mem) b = some node := by
  simp [lookupMem]

theorem lookupMem_cons_ne (mem : List (Nat × SNode)) (b : Nat) (node : SNode)
    (a : Nat) (h : b ≠ a) :
    lookupMem ((b, node) :: mem) a = lookupMem mem a := by
  simp [lookupMem, h]

theorem agreesBelow_refl (s : Store) (n : Nat) : agreesBelow s s n :=
  fun _ _ => rfl

theorem agreesBelow_trans {s s1 s2 : Store} {n : Nat}
    (h1 : agreesBelow s s1 n) (h2 : agreesBelow s1 s2 n) :
    agreesBelow s s2 n :=
  fun a ha => (h2 a ha).trans (h1 a ha)

theorem writeStore_agrees (s : Store) (a : Nat) (node : SNode) (n : Nat)
    (h : n ≤ a) : agreesBelow s (writeStore s a node) n := by
  intro b hb
  exact lookupMem_cons_ne s.mem a node b (by omega)

theorem writeStore_next (s : Store) (a : Nat) (node : SNode) :
    (writeStore s a node).next = s.next := rfl

theorem allocStore_agrees (s : Store) (node : SNode) (n : Nat)
    (h : n ≤ s.next) : agreesBelow s (allocStore s node).1 n := by
  intro b hb
  exact lookupMem_cons_ne s.mem s.next node b (by omega)

theorem allocStore_next (s : Store) (node : SNode) :
    (allocStore s node).1.next = s.next + 1 := rfl

theorem highStore_write (s : Store) (a : Nat) (node : SNode) (n : Nat)
    (hh : highStore s n) (hrefs : nodeRefsGe node n) :
    highStore (writeStore s a node) n := by
  intro b nb hb hl
  rw [show (writeStore s a node).mem = (a, node) :: s.mem from rfl] at hl
  by_cases hab : a = b
  · subst hab
    rw [lookupMem_cons_self] at hl
    exact (Option.some.injEq _ _ ▸ hl) ▸ hrefs
  · rw [lookupMem_cons_ne _ _ _ _ hab] at hl
    exact hh b nb hb hl

theorem highStore_alloc (s : Store) (node : SNode) (n : Nat)
    (hh : highStore s n) (hrefs : nodeRefsGe node n) :
    highStore (allocStore s node).1 n := by
  intro b nb hb hl
  rw [show (allocStore s node).1.mem = (s.next, node) :: s.mem from rfl] at hl
  by_cases hab : s.next = b
  · subst hab
    rw [lookupMem_cons_self] at hl
    exact (Option.some.injEq _ _ ▸ hl) ▸ hrefs
  · rw [lookupMem_cons_ne _ _ _ _ hab] at hl
    exact hh b nb hb hl

theorem lookupMem_mem (mem : List (Nat × SNode)) (a : Nat) (node : SNode)
    (hl : lookupMem mem a = some node) : (a, node) ∈ mem := by
  induction mem with
  | nil => simp [lookupMem] at hl
  | cons e mem ih =>
      obtain ⟨b, nd⟩ := e
      by_cases hb : b = a
      · subst hb
        rw [lookupMem_cons_self] at hl
        have : nd = node := by simpa using hl
        subst this
        exact List.mem_cons_self _ _
      · rw [lookupMem_cons_ne _ _ _ _ hb] at hl
        exact List.mem_cons_of_mem _ (ih hl)

theorem wfStore_lookup (s : Store) (a : Nat) (node : SNode)
    (hwf : wfStore s = true) (hl : lookupMem s.mem a = some node) :
    a < s.next ∧ nodeRefsLt node a = true := by
  unfold wfStore at hwf
  rw [List.all_eq_true] at hwf
  have := hwf (a, node) (lookupMem_mem s.mem a node hl)
  simp only [Bool.and_eq_true, decide_eq_true_eq] at this
  exact ⟨this.1, this.2⟩

theorem refLt_of_nodeRefsLt_obj {fs : List (String × SVal)} {a : Nat}
    {k : String} {b : Nat} (h : nodeRefsLt (SNode.sobj fs) a = true)
    (hm : (k, SVal.ref b) ∈ fs) : b < a := by
  simp only [nodeRefsLt, List.all_eq_true] at h
  have := h _ hm
  simpa using this

theorem refLt_of_nodeRefsLt_arr {es : List SVal} {a b : Nat}
    (h : nodeRefsLt (SNode.sarr es) a = true) (hm : SVal.ref b ∈ es) :
    b < a := by
  simp only [nodeRefsLt, List.all_eq_true] at h
  have := h _ hm
  simpa using this

theorem readBackAddr_frame (s s2 : Store) (n : Nat)
    (hagree : agreesBelow s s2 n) (hwf : wfStore s = true) :
    ∀ (fuel a : Nat), a < n →
      readBackAddr s2 fuel a = readBackAddr s fuel a := by
  intro fuel
  induction fuel with
  | zero => intro a _; rfl
  | succ fuel ih =>
      intro a ha
      simp only [readBackAddr]
      rw [hagree a ha]
      cases hl : lookupMem s.mem a with
      | none => rfl
      | some node =>
          have hrefs := (wfStore_lookup s a node hwf hl).2
          cases node with
          | sobj fs =>
              dsimp only
              congr 1
              apply List.map_congr_left
              intro kv hkv
              cases hv : kv.2 with
              | prim p => rfl
              | ref b =>
                  have hmem : (kv.1, SVal.ref b) ∈ fs := by
                    have h0 : (kv.1, kv.2) ∈ fs := by simpa using hkv
                    rw [hv] at h0
                    exact h0
                  have hb : b < a := refLt_of_nodeRefsLt_obj hrefs hmem
                  dsimp only
                  rw [ih b (by omega)]
          | sarr es =>
              dsimp only
              congr 1
              apply List.map_congr_left
              intro v hv2
              cases hv : v with
              | prim p => rfl
              | ref b =>
                  have hmem : SVal.ref b ∈ es := hv ▸ hv2
                  have hb : b < a := refLt_of_nodeRefsLt_arr hrefs hmem
                  dsimp only
                  rw [ih b (by omega)]

theorem readBackAddr_fuel_stable (s : Store) (hwf : wfStore s = true) :
    ∀ (a fuel fuel2 : Nat), a < fuel → a < fuel2 →
      readBackAddr s fuel a = readBackAddr s fuel2 a := by
  intro a
  induction a using Nat.strong_induction_on with
  | _ a ih =>
      intro fuel fuel2 h1 h2
      cases fuel with
      | zero => omega
      | succ f1 =>
          cases fuel2 with
          | zero => omega
          | succ f2 =>
              simp only [readBackAddr]
              cases hl : lookupMem s.mem a with
              | none => rfl
              | some node =>
                  have hrefs := (wfStore_lookup s a node hwf hl).2
                  cases node with
                  | sobj fs =>
                      dsimp only
                      congr 1
                      apply List.map_congr_left
                      intro kv hkv
                      cases hv : kv.2 with
                      | prim p => rfl
                      | ref b =>
                          have hmem : (kv.1, SVal.ref b) ∈ fs := by
                            have h0 : (kv.1, kv.2) ∈ fs := by simpa using hkv
                            rw [hv] at h0
                            exact h0
                          have hb : b < a := refLt_of_nodeRefsLt_obj hrefs hmem
                          dsimp only
                          rw [ih b hb f1 f2 (by omega) (by omega)]
                  | sarr es =>
                      dsimp only
                      congr 1
                      apply List.map_congr_left
                      intro v hv2
                      cases hv : v with
                      | prim p => rfl
                      | ref b =>
                          have hmem : SVal.ref b ∈ es := hv ▸ hv2
                          have hb : b < a := refLt_of_nodeRefsLt_arr hrefs hmem
                          dsimp only
                          rw [ih b hb f1 f2 (by omega) (by omega)]

mutual

theorem allocVal_spec : (v : JSValue) → ∀ (s : Store) (n : Nat), n ≤ s.next →
    s.next ≤ (allocVal s v).1.next ∧ agreesBelow s (allocVal s v).1 n ∧
    svalGe (allocVal s v).2 n ∧
    (highStore s n → highStore (allocVal s v).1 n)
  | .null => fun s n _ => by
      refine ⟨Nat.le_refl _, agreesBelow_refl s n, ?_, fun hh => hh⟩
      intro b hb
      cases hb
  | .bool _ => fun s n _ => by
      refine ⟨Nat.le_refl _, agreesBelow_refl s n, ?_, fun hh => hh⟩
      intro b hb
      cases hb
  | .num _ => fun s n _ => by
      refine ⟨Nat.le_refl _, agreesBelow_refl s n, ?_, fun hh => hh⟩
      intro b hb
      cases hb
  | .str _ => fun s n _ => by
      refine ⟨Nat.le_refl _, agreesBelow_refl s n, ?_, fun hh => hh⟩
      intro b hb
      cases hb
  | .arr xs => fun s n hn => by
      obtain ⟨h1, h2, h3, h4⟩ := allocElems_spec xs s n hn
      refine ⟨?_, ?_, ?_, ?_⟩
      · show s.next ≤
          (allocStore (allocElems s xs).1 (SNode.sarr (allocElems s xs).2)).1.next
        rw [allocStore_next]
        omega
      · exact agreesBelow_trans h2 (allocStore_agrees _ _ n (by omega))
      · intro b hb
        have hb2 : (allocElems s xs).1.next = b := by
          simpa [allocVal, allocStore] using hb
        omega
      · intro hh
        refine highStore_alloc _ _ _ (h4 hh) ?_
        show ∀ v ∈ (allocElems s xs).2, svalGe v n
        exact h3
  | .obj fs => fun s n hn => by
      obtain ⟨h1, h2, h3, h4⟩ := allocFields_spec fs s n hn
      refine ⟨?_, ?_, ?_, ?_⟩
      · show s.next ≤
          (allocStore (allocFields s fs).1 (SNode.sobj (allocFields s fs).2)).1.next
        rw [allocStore_next]
        omega
      · exact agreesBelow_trans h2 (allocStore_agrees _ _ n (by omega))
      · intro b hb
        have hb2 : (allocFields s fs).1.next = b := by
          simpa [allocVal, allocStore] using hb
        omega
      · intro hh
        refine highStore_alloc _ _ _ (h4 hh) ?_
        show ∀ kv ∈ (allocFields s fs).2, svalGe kv.2 n
        exact h3

theorem allocElems_spec : (xs : List JSValue) → ∀ (s : Store) (n : Nat),
    n ≤ s.next →
    s.next ≤ (allocElems s xs).1.next ∧ agreesBelow s (allocElems s xs).1 n ∧
    (∀ v ∈ (allocElems s xs).2, svalGe v n) ∧
    (highStore s n → highStore (allocElems s xs).1 n)
  | [] => fun s n _ => by
      refine ⟨Nat.le_refl _, agreesBelow_refl s n, ?_, fun hh => hh⟩
      intro v hv
      simp [allocElems] at hv
  | x :: xs => fun s n hn => by
      obtain ⟨h1, h2, h3, h4⟩ := allocVal_spec x s n hn
      obtain ⟨g1, g2, g3, g4⟩ := allocElems_spec xs (allocVal s x).1 n (by omega)
      refine ⟨?_, ?_, ?_, ?_⟩
      · show s.next ≤ (allocElems (allocVal s x).1 xs).1.next
        omega
      · exact agreesBelow_trans h2 g2
      · intro v hv
        rcases List.mem_cons.mp hv with he | hm
        · exact he ▸ h3
        · exact g3 v hm
      · intro hh
        exact g4 (h4 hh)

theorem allocFields_spec : (fs : List (String × JSValue)) →
    ∀ (s : Store) (n : Nat), n ≤ s.next →
    s.next ≤ (allocFields s fs).1.next ∧
    agreesBelow s (allocFields s fs).1 n ∧
    (∀ kv ∈ (allocFields s fs).2, svalGe kv.2 n) ∧
    (highStore s n → highStore (allocFields s fs).1 n)
  | [] => fun s n _ => by
      refine ⟨Nat.le_refl _, agreesBelow_refl s n, ?_, fun hh => hh⟩
      intro kv hkv
      simp [allocFields] at hkv
  | (k, v) :: fs => fun s n hn => by
      obtain ⟨h1, h2, h3, h4⟩ := allocVal_spec v s n hn
      obtain ⟨g1, g2, g3, g4⟩ := allocFields_spec fs (allocVal s v).1 n (by omega)
      refine ⟨?_, ?_, ?_, ?_⟩
      · show s.next ≤ (allocFields (allocVal s v).1 fs).1.next
        omega
      · exact agreesBelow_trans h2 g2
      · intro kv hkv
        rcases List.mem_cons.mp hkv with he | hm
        · rw [he]
          exact h3
        · exact g3 kv hm
      · intro hh
        exact g4 (h4 hh)

end

theorem svalGe_prim (p : JSPrim) (n : Nat) : svalGe (SVal.prim p) n :=
  fun _ hb => by cases hb

theorem storeStep_refl (s : Store) (n : Nat) (hh : highStore s n) :
    StoreStep s s n :=
  ⟨Nat.le_refl _, agreesBelow_refl s n, hh⟩

theorem storeStep_trans {s s2 s3 : Store} {n : Nat} (h1 : StoreStep s s2 n)
    (h2 : StoreStep s2 s3 n) : StoreStep s s3 n :=
  ⟨Nat.le_trans h1.1 h2.1, agreesBelow_trans h1.2.1 h2.2.1, h2.2.2⟩

theorem storeStep_write {s s2 : Store} {n : Nat} (a : Nat) (node2 : SNode)
    (h : StoreStep s s2 n) (ha : n ≤ a) (hrefs : nodeRefsGe node2 n) :
    StoreStep s (writeStore s2 a node2) n :=
  ⟨by rw [writeStore_next]; exact h.1,
   agreesBelow_trans h.2.1 (writeStore_agrees s2 a node2 n ha),
   highStore_write s2 a node2 n h.2.2 hrefs⟩

theorem allocVal_step (v : JSValue) (s : Store) (n : Nat) (hn : n ≤ s.next)
    (hh : highStore s n) :
    StoreStep s (allocVal s v).1 n ∧ svalGe (allocVal s v).2 n := by
  obtain ⟨h1, h2, h3, h4⟩ := allocVal_spec v s n hn
  exact ⟨⟨h1, h2, h4 hh⟩, h3⟩

theorem allocElems_step (xs : List JSValue) (s : Store) (n : Nat)
    (hn : n ≤ s.next) (hh : highStore s n) :
    StoreStep s (allocElems s xs).1 n ∧
    (∀ v ∈ (allocElems s xs).2, svalGe v n) := by
  obtain ⟨h1, h2, h3, h4⟩ := allocElems_spec xs s n hn
  exact ⟨⟨h1, h2, h4 hh⟩, h3⟩

theorem lookupField_exists_mem {β : Type} (fs : List (String × β))
    (key : String) (v : β) (h : lookupField fs key = some v) :
    ∃ k, (k, v) ∈ fs := by
  induction fs with
  | nil => simp [lookupField] at h
  | cons kw fs ih =>
      obtain ⟨k, w⟩ := kw
      by_cases hk : k = key
      · simp only [lookupField, if_pos hk, Option.some.injEq] at h
        exact ⟨k, h ▸ List.mem_cons_self _ _⟩
      · simp only [lookupField, if_neg hk] at h
        obtain ⟨k2, hm⟩ := ih h
        exact ⟨k2, List.mem_cons_of_mem _ hm⟩

theorem getChildS_svalGe (node : SNode) (key : JSValue) (child : SVal)
    (n : Nat) (hrefs : nodeRefsGe node n)
    (hg : getChildS node key = some child) : svalGe child n := by
  cases node with
  | sobj fs =>
      obtain ⟨k, hm⟩ := lookupField_exists_mem fs _ child hg
      exact hrefs (k, child) hm
  | sarr es =>
      simp only [getChildS] at hg
      cases hi : strToIndex (jsToString key) with
      | none => rw [hi] at hg; simp at hg
      | some i =>
          rw [hi] at hg
          exact hrefs child (List.get?_mem hg)

theorem mem_setField {β : Type} (fs : List (String × β)) (key : String)
    (v : β) (kv : String × β) (h : kv ∈ setField fs key v) :
    kv ∈ fs ∨ kv = (key, v) := by
  induction fs with
  | nil =>
      right
      simpa [setField] using h
  | cons kw fs ih =>
      obtain ⟨k, w⟩ := kw
      by_cases hk : k = key
      · simp only [setField, if_pos hk] at h
        rcases List.mem_cons.mp h with he | hm
        · right
          rw [he, hk]
        · left
          exact List.mem_cons_of_mem _ hm
      · simp only [setField, if_neg hk] at h
        rcases List.mem_cons.mp h with he | hm
        · left
          exact he ▸ List.mem_cons_self _ _
        · rcases ih hm with hin | heq
          · left
            exact List.mem_cons_of_mem _ hin
          · right
            exact heq

theorem mem_eraseField {β : Type} (fs : List (String × β)) (key : String)
    (kv : String × β) (h : kv ∈ eraseField fs key) : kv ∈ fs := by
  induction fs with
  | nil => simp [eraseField] at h
  | cons kw fs ih =>
      obtain ⟨k, w⟩ := kw
      by_cases hk : k = key
      · simp only [eraseField, if_pos hk] at h
        exact List.mem_cons_of_mem _ h
      · simp only [eraseField, if_neg hk] at h
        rcases List.mem_cons.mp h with he | hm
        · exact he ▸ List.mem_cons_self _ _
        · exact List.mem_cons_of_mem _ (ih hm)

theorem mem_listSetExtend {β : Type} (hole : β) (xs : List β) (i : Nat)
    (v : β) (x : β) (h : x ∈ listSetExtend hole xs i v) :
    x ∈ xs ∨ x = hole ∨ x = v := by
  unfold listSetExtend at h
  by_cases hlt : i < xs.length
  · rw [if_pos hlt] at h
    rcases List.mem_or_eq_of_mem_set h with hm | he
    · exact Or.inl hm
    · exact Or.inr (Or.inr he)
  · rw [if_neg hlt] at h
    rcases List.mem_append.mp h with h2 | h3
    · rcases List.mem_append.mp h2 with h4 | h5
      · exact Or.inl h4
      · exact Or.inr (Or.inl (List.eq_of_mem_replicate h5))
    · rcases List.mem_cons.mp h3 with he | hno
      · exact Or.inr (Or.inr he)
      · simp at hno

theorem setChildS_refsGe (node : SNode) (key : JSValue) (v : SVal) (n : Nat)
    (hnode : nodeRefsGe node n) (hv : svalGe v n) :
    nodeRefsGe (setChildS node key v) n := by
  cases node with
  | sobj fs =>
      show ∀ kv ∈ setField fs (jsToString key) v, svalGe kv.2 n
      intro kv hm
      rcases mem_setField fs _ v kv hm with hin | heq
      · exact hnode kv hin
      · rw [heq]
        exact hv
  | sarr es =>
      simp only [setChildS]
      cases hi : strToIndex (jsToString key) with
      | none => exact hnode
      | some i =>
          show ∀ w ∈ listSetExtend (SVal.prim JSPrim.pnull) es i v, svalGe w n
          intro w hm
          rcases mem_listSetExtend _ es i v w hm with hin | hh | hvv
          · exact hnode w hin
          · rw [hh]
            exact svalGe_prim _ n
          · rw [hvv]
            exact hv

theorem sarr_append_refsGe (es es2 : List SVal) (n : Nat)
    (h1 : nodeRefsGe (SNode.sarr es) n) (h2 : ∀ v ∈ es2, svalGe v n) :
    nodeRefsGe (SNode.sarr (es ++ es2)) n := by
  show ∀ v ∈ es ++ es2, svalGe v n
  intro v hv
  rcases List.mem_append.mp hv with hm | hm
  · exact h1 v hm
  · exact h2 v hm

theorem sarr_eraseIdx_refsGe (es : List SVal) (i : Nat) (n : Nat)
    (h : nodeRefsGe (SNode.sarr es) n) :
    nodeRefsGe (SNode.sarr (es.eraseIdx i)) n := by
  show ∀ v ∈ es.eraseIdx i, svalGe v n
  intro v hv
  exact h v ((List.eraseIdx_sublist es i).subset hv)

theorem sobj_eraseField_refsGe (fs : List (String × SVal)) (key : String)
    (n : Nat) (h : nodeRefsGe (SNode.sobj fs) n) :
    nodeRefsGe (SNode.sobj (eraseField fs key)) n := by
  show ∀ kv ∈ eraseField fs key, svalGe kv.2 n
  intro kv hm
  exact h kv (mem_eraseField fs key kv hm)

theorem sobj_setField_refsGe (fs : List (String × SVal)) (key : String)
    (v : SVal) (n : Nat) (h : nodeRefsGe (SNode.sobj fs) n)
    (hv : svalGe v n) : nodeRefsGe (SNode.sobj (setField fs key v)) n := by
  show ∀ kv ∈ setField fs key v, svalGe kv.2 n
  intro kv hm
  rcases mem_setField fs key v kv hm with hin | heq
  · exact h kv hin
  · rw [heq]
    exact hv

theorem applyFinalS_spec (s : Store) (a : Nat) (node : SNode)
    (rawKey newValue : JSValue) (n : Nat) (hn : n ≤ s.next) (ha : n ≤ a)
    (hh : highStore s n) (hnode : nodeRefsGe node n) :
    StoreStep s (applyFinalS s a node rawKey newValue) n := by
  cases node with
  | sarr es =>
      simp only [applyFinalS]
      by_cases h1 : normalizePropertyKey rawKey = JSValue.num (-1)
      · rw [if_pos h1]
        obtain ⟨hs, hv⟩ := allocVal_step newValue s n hn hh
        refine storeStep_write a _ hs ha ?_
        exact sarr_append_refsGe es _ n hnode (by
          intro v hv2
          rcases List.mem_cons.mp hv2 with he | hm
          · exact he ▸ hv
          · simp at hm)
      · rw [if_neg h1]
        by_cases h2 : normalizePropertyKey rawKey = JSValue.num (-2)
        · rw [if_pos h2]
          cases newValue with
          | arr vs =>
              obtain ⟨hs, hv⟩ := allocElems_step vs s n hn hh
              exact storeStep_write a _ hs ha (sarr_append_refsGe es _ n hnode hv)
          | null => exact storeStep_refl s n hh
          | bool b => exact storeStep_refl s n hh
          | num m => exact storeStep_refl s n hh
          | str t => exact storeStep_refl s n hh
          | obj gs => exact storeStep_refl s n hh
        · rw [if_neg h2]
          by_cases h3 : newValue = JSValue.null
          · rw [if_pos h3]
            cases hj : jsToNumber (normalizePropertyKey rawKey) with
            | none => exact storeStep_refl s n hh
            | some t =>
                show StoreStep s
                  (if 0 ≤ t ∧ t < (es.length : Int) then
                    writeStore s a (SNode.sarr (es.eraseIdx t.toNat))
                  else s) n
                by_cases h4 : 0 ≤ t ∧ t < (es.length : Int)
                · rw [if_pos h4]
                  exact storeStep_write a _ (storeStep_refl s n hh) ha
                    (sarr_eraseIdx_refsGe es _ n hnode)
                · rw [if_neg h4]
                  exact storeStep_refl s n hh
          · rw [if_neg h3]
            cases hi : strToIndex (jsToString (normalizePropertyKey rawKey)) with
            | none => exact storeStep_refl s n hh
            | some i =>
                obtain ⟨hs, hv⟩ := allocVal_step newValue s n hn hh
                refine storeStep_write a _ hs ha ?_
                show ∀ w ∈ listSetExtend (SVal.prim JSPrim.pnull) es i
                    (allocVal s newValue).2, svalGe w n
                intro w hm
                rcases mem_listSetExtend _ es i _ w hm with hin | hhole | hvv
                · exact hnode w hin
                · rw [hhole]
                  exact svalGe_prim _ n
                · rw [hvv]
                  exact hv
  | sobj fs =>
      simp only [applyFinalS]
      by_cases h3 : newValue = JSValue.null
      · rw [if_pos h3]
        exact storeStep_write a _ (storeStep_refl s n hh) ha
          (sobj_eraseField_refsGe fs _ n hnode)
      · rw [if_neg h3]
        obtain ⟨hs, hv⟩ := allocVal_step newValue s n hn hh
        exact storeStep_write a _ hs ha (sobj_setField_refsGe fs _ _ n hnode hv)

theorem traverseS_spec (path : List JSValue) :
    ∀ (s : Store) (cur : SVal) (rawKey finalValue : JSValue) (n : Nat),
      n ≤ s.next → svalGe cur n → highStore s n →
      StoreStep s (traverseS s cur path rawKey finalValue).1 n := by
  induction path with
  | nil =>
      intro s cur rawKey finalValue n hn hcur hh
      cases cur with
      | prim p => exact storeStep_refl s n hh
      | ref a =>
          show StoreStep s
            (match lookupMem s.mem a with
             | none => (s, false)
             | some node => (applyFinalS s a node rawKey finalValue, true)).1 n
          cases hl : lookupMem s.mem a with
          | none => exact storeStep_refl s n hh
          | some node =>
              have ha : n ≤ a := hcur a rfl
              exact applyFinalS_spec s a node rawKey finalValue n hn ha hh
                (hh a node ha hl)
  | cons p rest ih =>
      intro s cur rawKey finalValue n hn hcur hh
      cases cur with
      | prim q => exact storeStep_refl s n hh
      | ref a =>
          have ha : n ≤ a := hcur a rfl
          show StoreStep s
            (match lookupMem s.mem a with
             | none => (s, false)
             | some node =>
                 match
                   (match getChildS node (normalizePropertyKey p) with
                    | some (SVal.prim JSPrim.pnull) => none
                    | other => other) with
                 | some child => traverseS s child rest rawKey finalValue
                 | none =>
                     traverseS
                       (writeStore (allocStore s
                           (newNodeFor (nextElementOf rest rawKey))).1 a
                         (setChildS node (normalizePropertyKey p)
                           (SVal.ref (allocStore s
                             (newNodeFor (nextElementOf rest rawKey))).2)))
                       (SVal.ref (allocStore s
                         (newNodeFor (nextElementOf rest rawKey))).2)
                       rest rawKey finalValue).1 n
          cases hl : lookupMem s.mem a with
          | none => exact storeStep_refl s n hh
          | some node =>
              dsimp only
              have hnode : nodeRefsGe node n := hh a node ha hl
              cases hex : (match getChildS node (normalizePropertyKey p) with
                           | some (SVal.prim JSPrim.pnull) => none
                           | other => other) with
              | some child =>
                  have hchild : svalGe child n := by
                    have hg : getChildS node (normalizePropertyKey p) =
                        some child := by
                      cases hg0 : getChildS node (normalizePropertyKey p) with
                      | none => rw [hg0] at hex; simp at hex
                      | some w =>
                          cases w with
                          | prim q =>
                              cases q with
                              | pnull => rw [hg0] at hex; simp at hex
                              | pbool b => rw [hg0] at hex; exact hex
                              | pnum m => rw [hg0] at hex; exact hex
                              | pstr t => rw [hg0] at hex; exact hex
                          | ref b => rw [hg0] at hex; exact hex
                    exact getChildS_svalGe node _ child n hnode hg
                  exact ih s child rawKey finalValue n hn hchild hh
              | none =>
                  have hstep1 : StoreStep s
                      (allocStore s (newNodeFor (nextElementOf rest rawKey))).1
                      n := by
                    refine ⟨by rw [allocStore_next]; omega,
                      allocStore_agrees s _ n (by omega), ?_⟩
                    refine highStore_alloc s _ n hh ?_
                    cases hne : nextElementOf rest rawKey with
                    | num m =>
                        show ∀ v ∈ ([] : List SVal), svalGe v n
                        simp
                    | null =>
                        show ∀ kv ∈ ([] : List (String × SVal)), svalGe kv.2 n
                        simp
                    | bool b =>
                        show ∀ kv ∈ ([] : List (String × SVal)), svalGe kv.2 n
                        simp
                    | str t =>
                        show ∀ kv ∈ ([] : List (String × SVal)), svalGe kv.2 n
                        simp
                    | arr xs =>
                        show ∀ kv ∈ ([] : List (String × SVal)), svalGe kv.2 n
                        simp
                    | obj gs =>
                        show ∀ kv ∈ ([] : List (String × SVal)), svalGe kv.2 n
                        simp
                  have hfresh : svalGe
                      (SVal.ref (allocStore s
                        (newNodeFor (nextElementOf rest rawKey))).2) n := by
                    intro b hb
                    have : s.next = b := by simpa [allocStore] using hb
                    omega
                  have hstep2 : StoreStep s
                      (writeStore (allocStore s
                          (newNodeFor (nextElementOf rest rawKey))).1 a
                        (setChildS node (normalizePropertyKey p)
                          (SVal.ref (allocStore s
                            (newNodeFor (nextElementOf rest rawKey))).2))) n :=
                    storeStep_write a _ hstep1 ha
                      (setChildS_refsGe node _ _ n hnode hfresh)
                  refine storeStep_trans hstep2 ?_
                  refine ih _ _ rawKey finalValue n ?_ hfresh hstep2.2.2
                  have h1 : s.next + 1 = (writeStore (allocStore s
                      (newNodeFor (nextElementOf rest rawKey))).1 a
                      (setChildS node (normalizePropertyKey p)
                        (SVal.ref (allocStore s
                          (newNodeFor (nextElementOf rest rawKey))).2))).next :=
                    rfl
                  omega

theorem highStore_init (s : Store) (hwf : wfStore s = true) :
    highStore s s.next := by
  intro a node ha hl
  have h := (wfStore_lookup s a node hwf hl).1
  exact absurd h (by omega)

theorem readSVal_preserved (s s2 : Store) (root : SVal)
    (hwf : wfStore s = true) (hbd : svalBound root s.next = true)
    (hnext : s.next ≤ s2.next) (hagree : agreesBelow s s2 s.next) :
    readSVal s2 s2.next root = readSVal s s.next root := by
  cases root with
  | prim p => rfl
  | ref a =>
      have ha : a < s.next := by simpa [svalBound] using hbd
      show readBackAddr s2 s2.next a = readBackAddr s s.next a
      rw [readBackAddr_frame s s2 s.next hagree hwf s2.next a ha]
      exact readBackAddr_fuel_stable s hwf a s2.next s.next (by omega) (by omega)

theorem applyStateUpdateS_stage2 (s1 : Store) (a1 : Nat) (n : Nat)
    (path : List JSValue) (rawKey finalValue : JSValue)
    (hn : n ≤ s1.next) (ha1 : a1 < s1.next)
    (fs1 : List (String × SVal))
    (hl1 : lookupMem s1.mem a1 = some (SNode.sobj fs1))
    (hh : highStore s1 n) :
    StoreStep s1
      (traverseS (allocVal s1 (readSVal s1 s1.next (SVal.ref a1))).1
        (allocVal s1 (readSVal s1 s1.next (SVal.ref a1))).2
        path rawKey finalValue).1 n ∧
    (∃ b, (allocVal s1 (readSVal s1 s1.next (SVal.ref a1))).2 = SVal.ref b ∧
      s1.next ≤ b) := by
  obtain ⟨m, hm⟩ : ∃ m, s1.next = m + 1 := ⟨s1.next - 1, by omega⟩
  have hdoc : ∃ L, readSVal s1 s1.next (SVal.ref a1) = JSValue.obj L := by
    refine ⟨fs1.map (fun kv => (kv.1,
      match kv.2 with
      | SVal.prim p => p.toJS
      | SVal.ref b => readBackAddr s1 m b)), ?_⟩
    show readBackAddr s1 s1.next a1 = _
    rw [hm]
    simp only [readBackAddr, hl1]
  obtain ⟨L, hLeq⟩ := hdoc
  constructor
  · obtain ⟨hstep1, hGe⟩ :=
      allocVal_step (readSVal s1 s1.next (SVal.ref a1)) s1 n hn hh
    refine storeStep_trans hstep1 ?_
    exact traverseS_spec path _ _ rawKey finalValue n
      (Nat.le_trans hn hstep1.1) hGe hstep1.2.2
  · have hAF := (allocFields_spec L s1 n hn).1
    refine ⟨(allocFields s1 L).1.next, ?_, ?_⟩
    · rw [hLeq]
      rfl
    · exact hAF

theorem storeStep_fresh_obj (s : Store) (hwf : wfStore s = true) :
    StoreStep s (allocStore s (SNode.sobj [])).1 s.next := by
  refine ⟨by rw [allocStore_next]; omega,
    allocStore_agrees s _ s.next (Nat.le_refl _), ?_⟩
  refine highStore_alloc s _ s.next (highStore_init s hwf) ?_
  show ∀ kv ∈ ([] : List (String × SVal)), svalGe kv.2 s.next
  simp

/-- C4: `applyStateUpdate` does not mutate its input document.  Over the
explicit-heap embedding: running the update leaves the serialized value of
the caller's document unchanged — the working copy of line 99 receives all
mutations — and the function returns either a value rooted in freshly
allocated storage (a distinct value) or, for a malformed operation, the
caller's own reference. -/
theorem claim4_no_input_mutation :
    ∀ (s : Store) (root : SVal) (op : JSValue),
      wfStore s = true → svalBound root s.next = true →
      readSVal (applyStateUpdateS s root op).1
          (applyStateUpdateS s root op).1.next root =
        readSVal s s.next root ∧
      (malformedUpdate op = true → applyStateUpdateS s root op = (s, root)) ∧
      ((applyStateUpdateS s root op).2 = root ∨
        ∃ b, (applyStateUpdateS s root op).2 = SVal.ref b ∧ s.next ≤ b) := by
  intro s root op hwf hbd
  cases op with
  | null => exact ⟨rfl, fun _ => rfl, Or.inl rfl⟩
  | bool b => exact ⟨rfl, fun _ => rfl, Or.inl rfl⟩
  | num n => exact ⟨rfl, fun _ => rfl, Or.inl rfl⟩
  | str t => exact ⟨rfl, fun _ => rfl, Or.inl rfl⟩
  | obj fs => exact ⟨rfl, fun _ => rfl, Or.inl rfl⟩
  | arr elems =>
      by_cases hlen : elems.length < 2
      · have hid : applyStateUpdateS s root (JSValue.arr elems) = (s, root) := by
          simp [applyStateUpdateS, hlen]
        rw [hid]
        exact ⟨rfl, fun _ => rfl, Or.inl rfl⟩
      · cases root with
        | ref a =>
            cases hl : lookupMem s.mem a with
            | some node =>
                cases node with
                | sobj fs0 =>
                    have ha : a < s.next := by simpa [svalBound] using hbd
                    obtain ⟨hstep2, b0, hcr, hb0⟩ :=
                      applyStateUpdateS_stage2 s a s.next
                        (elems.take (elems.length - 2))
                        (elems.getD (elems.length - 2) JSValue.null)
                        (elems.getD (elems.length - 1) JSValue.null)
                        (Nat.le_refl _) ha fs0 hl (highStore_init s hwf)
                    have hred : applyStateUpdateS s (SVal.ref a)
                        (JSValue.arr elems) =
                        (if (traverseS
                            (allocVal s (readSVal s s.next (SVal.ref a))).1
                            (allocVal s (readSVal s s.next (SVal.ref a))).2
                            (elems.take (elems.length - 2))
                            (elems.getD (elems.length - 2) JSValue.null)
                            (elems.getD (elems.length - 1) JSValue.null)).2 = true
                         then ((traverseS
                            (allocVal s (readSVal s s.next (SVal.ref a))).1
                            (allocVal s (readSVal s s.next (SVal.ref a))).2
                            (elems.take (elems.length - 2))
                            (elems.getD (elems.length - 2) JSValue.null)
                            (elems.getD (elems.length - 1) JSValue.null)).1,
                           (allocVal s (readSVal s s.next (SVal.ref a))).2)
                         else ((traverseS
                            (allocVal s (readSVal s s.next (SVal.ref a))).1
                            (allocVal s (readSVal s s.next (SVal.ref a))).2
                            (elems.take (elems.length - 2))
                            (elems.getD (elems.length - 2) JSValue.null)
                            (elems.getD (elems.length - 1) JSValue.null)).1,
                           SVal.ref a)) := by
                      simp only [applyStateUpdateS, if_neg hlen, hl]
                    rw [hred]
                    by_cases hflag : (traverseS
                        (allocVal s (readSVal s s.next (SVal.ref a))).1
                        (allocVal s (readSVal s s.next (SVal.ref a))).2
                        (elems.take (elems.length - 2))
                        (elems.getD (elems.length - 2) JSValue.null)
                        (elems.getD (elems.length - 1) JSValue.null)).2 = true
                    · rw [if_pos hflag]
                      refine ⟨?_, fun hm => absurd
                        (by simpa [malformedUpdate] using hm) hlen, ?_⟩
                      · exact readSVal_preserved s _ _ hwf hbd hstep2.1
                          hstep2.2.1
                      · exact Or.inr ⟨b0, hcr, hb0⟩
                    · rw [if_neg hflag]
                      refine ⟨?_, fun hm => absurd
                        (by simpa [malformedUpdate] using hm) hlen, Or.inl rfl⟩
                      exact readSVal_preserved s _ _ hwf hbd hstep2.1
                        hstep2.2.1
                | sarr es0 =>
                    have hstep1 := storeStep_fresh_obj s hwf
                    have ha1 : (allocStore s (SNode.sobj [])).2 <
                        (allocStore s (SNode.sobj [])).1.next := by
                      show s.next < s.next + 1
                      omega
                    obtain ⟨hstep2, b0, hcr, hb0⟩ :=
                      applyStateUpdateS_stage2 (allocStore s (SNode.sobj [])).1
                        (allocStore s (SNode.sobj [])).2 s.next
                        (elems.take (elems.length - 2))
                        (elems.getD (elems.length - 2) JSValue.null)
                        (elems.getD (elems.length - 1) JSValue.null)
                        (by rw [allocStore_next]; omega) ha1 []
                        (lookupMem_cons_self s.mem s.next (SNode.sobj []))
                        hstep1.2.2
                    have hstep := storeStep_trans hstep1 hstep2
                    have hred : applyStateUpdateS s (SVal.ref a)
                        (JSValue.arr elems) =
                        (if (traverseS
                            (allocVal (allocStore s (SNode.sobj [])).1
                              (readSVal (allocStore s (SNode.sobj [])).1
                                (allocStore s (SNode.sobj [])).1.next
                                (SVal.ref (allocStore s (SNode.sobj [])).2))).1
                            (allocVal (allocStore s (SNode.sobj [])).1
                              (readSVal (allocStore s (SNode.sobj [])).1
                                (allocStore s (SNode.sobj [])).1.next
                                (SVal.ref (allocStore s (SNode.sobj [])).2))).2
                            (elems.take (elems.length - 2))
                            (elems.getD (elems.length - 2) JSValue.null)
                            (elems.getD (elems.length - 1) JSValue.null)).2 = true
                         then ((traverseS
                            (allocVal (allocStore s (SNode.sobj [])).1
                              (readSVal (allocStore s (SNode.sobj [])).1
                                (allocStore s (SNode.sobj [])).1.next
                                (SVal.ref (allocStore s (SNode.sobj [])).2))).1
                            (allocVal (allocStore s (SNode.sobj [])).1
                              (readSVal (allocStore s (SNode.sobj [])).1
                                (allocStore s (SNode.sobj [])).1.next
                                (SVal.ref (allocStore s (SNode.sobj [])).2))).2
                            (elems.take (elems.length - 2))
                            (elems.getD (elems.length - 2) JSValue.null)
                            (elems.getD (elems.length - 1) JSValue.null)).1,
                           (allocVal (allocStore s (SNode.sobj [])).1
                              (readSVal (allocStore s (SNode.sobj [])).1
                                (allocStore s (SNode.sobj [])).1.next
                                (SVal.ref (allocStore s (SNode.sobj [])).2))).2)
                         else ((traverseS
                            (allocVal (allocStore s (SNode.sobj [])).1
                              (readSVal (allocStore s (SNode.sobj [])).1
                                (allocStore s (SNode.sobj [])).1.next
                                (SVal.ref (allocStore s (SNode.sobj [])).2))).1
                            (allocVal (allocStore s (SNode.sobj [])).1
                              (readSVal (allocStore s (SNode.sobj [])).1
                                (allocStore s (SNode.sobj [])).1.next
                                (SVal.ref (allocStore s (SNode.sobj [])).2))).2
                            (elems.take (elems.length - 2))
                            (elems.getD (elems.length - 2) JSValue.null)
                            (elems.getD (elems.length - 1) JSValue.null)).1,
                           SVal.ref (allocStore s (SNode.sobj [])).2)) := by
                      simp only [applyStateUpdateS, if_neg hlen, hl]
                    rw [hred]
                    by_cases hflag : (traverseS
                        (allocVal (allocStore s (SNode.sobj [])).1
                          (readSVal (allocStore s (SNode.sobj [])).1
                            (allocStore s (SNode.sobj [])).1.next
                            (SVal.ref (allocStore s (SNode.sobj [])).2))).1
                        (allocVal (allocStore s (SNode.sobj [])).1
                          (readSVal (allocStore s (SNode.sobj [])).1
                            (allocStore s (SNode.sobj [])).1.next
                            (SVal.ref (allocStore s (SNode.sobj [])).2))).2
                        (elems.take (elems.length - 2))
                        (elems.getD (elems.length - 2) JSValue.null)
                        (elems.getD (elems.length - 1) JSValue.null)).2 = true
                    · rw [if_pos hflag]
                      refine ⟨?_, fun hm => absurd
                        (by simpa [malformedUpdate] using hm) hlen, ?_⟩
                      · exact readSVal_preserved s _ _ hwf hbd hstep.1
                          hstep.2.1
                      · refine Or.inr ⟨b0, hcr, ?_⟩
                        have := hstep1.1
                        omega
                    · rw [if_neg hflag]
                      refine ⟨?_, fun hm => absurd
                        (by simpa [malformedUpdate] using hm) hlen, ?_⟩
                      · exact readSVal_preserved s _ _ hwf hbd hstep.1
                          hstep.2.1
                      · exact Or.inr ⟨(allocStore s (SNode.sobj [])).2, rfl,
                          Nat.le_refl _⟩
            | none =>
                have hstep1 := storeStep_fresh_obj s hwf
                have ha1 : (allocStore s (SNode.sobj [])).2 <
                    (allocStore s (SNode.sobj [])).1.next := by
                  show s.next < s.next + 1
                  omega
                obtain ⟨hstep2, b0, hcr, hb0⟩ :=
                  applyStateUpdateS_stage2 (allocStore s (SNode.sobj [])).1
                    (allocStore s (SNode.sobj [])).2 s.next
                    (elems.take (elems.length - 2))
                    (elems.getD (elems.length - 2) JSValue.null)
                    (elems.getD (elems.length - 1) JSValue.null)
                    (by rw [allocStore_next]; omega) ha1 []
                    (lookupMem_cons_self s.mem s.next (SNode.sobj []))
                    hstep1.2.2
                have hstep := storeStep_trans hstep1 hstep2
                have hred : applyStateUpdateS s (SVal.ref a)
                    (JSValue.arr elems) =
                    (if (traverseS
                        (allocVal (allocStore s (SNode.sobj [])).1
                          (readSVal (allocStore s (SNode.sobj [])).1
                            (allocStore s (SNode.sobj [])).1.next
                            (SVal.ref (allocStore s (SNode.sobj [])).2))).1
                        (allocVal (allocStore s (SNode.sobj [])).1
                          (readSVal (allocStore s (SNode.sobj [])).1
                            (allocStore s (SNode.sobj [])).1.next
                            (SVal.ref (allocStore s (SNode.sobj [])).2))).2
                        (elems.take (elems.length - 2))
                        (elems.getD (elems.length - 2) JSValue.null)
                        (elems.getD (elems.length - 1) JSValue.null)).2 = true
                     then ((traverseS
                        (allocVal (allocStore s (SNode.sobj [])).1
                          (readSVal (allocStore s (SNode.sobj [])).1
                            (allocStore s (SNode.sobj [])).1.next
                            (SVal.ref (allocStore s (SNode.sobj [])).2))).1
                        (allocVal (allocStore s (SNode.sobj [])).1
                          (readSVal (allocStore s (SNode.sobj [])).1
                            (allocStore s (SNode.sobj [])).1.next
                            (SVal.ref (allocStore s (SNode.sobj [])).2))).2
                        (elems.take (elems.length - 2))
                        (elems.getD (elems.length - 2) JSValue.null)
                        (elems.getD (elems.length - 1) JSValue.null)).1,
                       (allocVal (allocStore s (SNode.sobj [])).1
                          (readSVal (allocStore s (SNode.sobj [])).1
                            (allocStore s (SNode.sobj [])).1.next
                            (SVal.ref (allocStore s (SNode.sobj [])).2))).2)
                     else ((traverseS
                        (allocVal (allocStore s (SNode.sobj [])).1
                          (readSVal (allocStore s (SNode.sobj [])).1
                            (allocStore s (SNode.sobj [])).1.next
                            (SVal.ref (allocStore s (SNode.sobj [])).2))).1
                        (allocVal (allocStore s (SNode.sobj [])).1
                          (readSVal (allocStore s (SNode.sobj [])).1
                            (allocStore s (SNode.sobj [])).1.next
                            (SVal.ref (allocStore s (SNode.sobj [])).2))).2
                        (elems.take (elems.length - 2))
                        (elems.getD (elems.length - 2) JSValue.null)
                        (elems.getD (elems.length - 1) JSValue.null)).1,
                       SVal.ref (allocStore s (SNode.sobj [])).2)) := by
                  simp only [applyStateUpdateS, if_neg hlen, hl]
                rw [hred]
                by_cases hflag : (traverseS
                    (allocVal (allocStore s (SNode.sobj [])).1
                      (readSVal (allocStore s (SNode.sobj [])).1
                        (allocStore s (SNode.sobj [])).1.next
                        (SVal.ref (allocStore s (SNode.sobj [])).2))).1
                    (allocVal (allocStore s (SNode.sobj [])).1
                      (readSVal (allocStore s (SNode.sobj [])).1
                        (allocStore s (SNode.sobj [])).1.next
                        (SVal.ref (allocStore s (SNode.sobj [])).2))).2
                    (elems.take (elems.length - 2))
                    (elems.getD (elems.length - 2) JSValue.null)
                    (elems.getD (elems.length - 1) JSValue.null)).2 = true
                · rw [if_pos hflag]
                  refine ⟨?_, fun hm => absurd
                    (by simpa [malformedUpdate] using hm) hlen, ?_⟩
                  · exact readSVal_preserved s _ _ hwf hbd hstep.1 hstep.2.1
                  · refine Or.inr ⟨b0, hcr, ?_⟩
                    have := hstep1.1
                    omega
                · rw [if_neg hflag]
                  refine ⟨?_, fun hm => absurd
                    (by simpa [malformedUpdate] using hm) hlen, ?_⟩
                  · exact readSVal_preserved s _ _ hwf hbd hstep.1 hstep.2.1
                  · exact Or.inr ⟨(allocStore s (SNode.sobj [])).2, rfl,
                      Nat.le_refl _⟩
        | prim p0 =>
            have hstep1 := storeStep_fresh_obj s hwf
            have ha1 : (allocStore s (SNode.sobj [])).2 <
                (allocStore s (SNode.sobj [])).1.next := by
              show s.next < s.next + 1
              omega
            obtain ⟨hstep2, b0, hcr, hb0⟩ :=
              applyStateUpdateS_stage2 (allocStore s (SNode.sobj [])).1
                (allocStore s (SNode.sobj [])).2 s.next
                (elems.take (elems.length - 2))
                (elems.getD (elems.length - 2) JSValue.null)
                (elems.getD (elems.length - 1) JSValue.null)
                (by rw [allocStore_next]; omega) ha1 []
                (lookupMem_cons_self s.mem s.next (SNode.sobj []))
                hstep1.2.2
            have hstep := storeStep_trans hstep1 hstep2
            have hred : applyStateUpdateS s (SVal.prim p0)
                (JSValue.arr elems) =
                (if (traverseS
                    (allocVal (allocStore s (SNode.sobj [])).1
                      (readSVal (allocStore s (SNode.sobj [])).1
                        (allocStore s (SNode.sobj [])).1.next
                        (SVal.ref (allocStore s (SNode.sobj [])).2))).1
                    (allocVal (allocStore s (SNode.sobj [])).1
                      (readSVal (allocStore s (SNode.sobj [])).1
                        (allocStore s (SNode.sobj [])).1.next
                        (SVal.ref (allocStore s (SNode.sobj [])).2))).2
                    (elems.take (elems.length - 2))
                    (elems.getD (elems.length - 2) JSValue.null)
                    (elems.getD (elems.length - 1) JSValue.null)).2 = true
                 then ((traverseS
                    (allocVal (allocStore s (SNode.sobj [])).1
                      (readSVal (allocStore s (SNode.sobj [])).1
                        (allocStore s (SNode.sobj [])).1.next
                        (SVal.ref (allocStore s (SNode.sobj [])).2))).1
                    (allocVal (allocStore s (SNode.sobj [])).1
                      (readSVal (allocStore s (SNode.sobj [])).1
                        (allocStore s (SNode.sobj [])).1.next
                        (SVal.ref (allocStore s (SNode.sobj [])).2))).2
                    (elems.take (elems.length - 2))
                    (elems.getD (elems.length - 2) JSValue.null)
                    (elems.getD (elems.length - 1) JSValue.null)).1,
                   (allocVal (allocStore s (SNode.sobj [])).1
                      (readSVal (allocStore s (SNode.sobj [])).1
                        (allocStore s (SNode.sobj [])).1.next
                        (SVal.ref (allocStore s (SNode.sobj [])).2))).2)
                 else ((traverseS
                    (allocVal (allocStore s (SNode.sobj [])).1
                      (readSVal (allocStore s (SNode.sobj [])).1
                        (allocStore s (SNode.sobj [])).1.next
                        (SVal.ref (allocStore s (SNode.sobj [])).2))).1
                    (allocVal (allocStore s (SNode.sobj [])).1
                      (readSVal (allocStore s (SNode.sobj [])).1
                        (allocStore s (SNode.sobj [])).1.next
                        (SVal.ref (allocStore s (SNode.sobj [])).2))).2
                    (elems.take (elems.length - 2))
                    (elems.getD (elems.length - 2) JSValue.null)
                    (elems.getD (elems.length - 1) JSValue.null)).1,
                   SVal.ref (allocStore s (SNode.sobj [])).2)) := by
              simp only [applyStateUpdateS, if_neg hlen]
            rw [hred]
            by_cases hflag : (traverseS
                (allocVal (allocStore s (SNode.sobj [])).1
                  (readSVal (allocStore s (SNode.sobj [])).1
                    (allocStore s (SNode.sobj [])).1.next
                    (SVal.ref (allocStore s (SNode.sobj [])).2))).1
                (allocVal (allocStore s (SNode.sobj [])).1
                  (readSVal (allocStore s (SNode.sobj [])).1
                    (allocStore s (SNode.sobj [])).1.next
                    (SVal.ref (allocStore s (SNode.sobj [])).2))).2
                (elems.take (elems.length - 2))
                (elems.getD (elems.length - 2) JSValue.null)
                (elems.getD (elems.length - 1) JSValue.null)).2 = true
            · rw [if_pos hflag]
              refine ⟨?_, fun hm => absurd
                (by simpa [malformedUpdate] using hm) hlen, ?_⟩
              · exact readSVal_preserved s _ _ hwf hbd hstep.1 hstep.2.1
              · refine Or.inr ⟨b0, hcr, ?_⟩
                have := hstep1.1
                omega
            · rw [if_neg hflag]
              refine ⟨?_, fun hm => absurd
                (by simpa [malformedUpdate] using hm) hlen, ?_⟩
              · exact readSVal_preserved s _ _ hwf hbd hstep.1 hstep.2.1
              · exact Or.inr ⟨(allocStore s (SNode.sobj [])).2, rfl,
                  Nat.le_refl _⟩

/-- C4 witness: a concrete two-binding document is unchanged by a set
operation, and the returned root is fresh. -/
theorem claim4_no_input_mutation_witness :
    readSVal (applyStateUpdateS
        ⟨[(0, SNode.sobj [("a", SVal.prim (JSPrim.pnum 1))])], 1⟩
        (SVal.ref 0) (.arr [.str "b", .num 2])).1
      (applyStateUpdateS
        ⟨[(0, SNode.sobj [("a", SVal.prim (JSPrim.pnum 1))])], 1⟩
        (SVal.ref 0) (.arr [.str "b", .num 2])).1.next (SVal.ref 0) =
    readSVal ⟨[(0, SNode.sobj [("a", SVal.prim (JSPrim.pnum 1))])], 1⟩ 1
      (SVal.ref 0) :=
  (claim4_no_input_mutation
    ⟨[(0, SNode.sobj [("a", SVal.prim (JSPrim.pnum 1))])], 1⟩
    (SVal.ref 0) (.arr [.str "b", .num 2]) (by decide) (by decide)).1

end FoldingControl
